import Mathlib

/-!
Shallow embedding of the bash_builder source-inclusion resolver
(src/main.rs) and verification of its specification.

Modelling conventions:
* Rust `String` / `&str` values are embedded as `List Char` (called `Str`).
* Rust `PathBuf` values are embedded as lists of components (`List Str`);
  `PathBuf::push` appends the slash-separated components of the pushed
  token, without any normalization (the source performs none either).
* The filesystem is an explicit argument `Fs := Path → Option Str`
  (`none` = the path does not exist / cannot be read); in the source it is
  the ambient real filesystem accessed through `File::open` and
  `Path::exists`.
* Unbounded recursion (`load_dependents` / `resolve_dependents` recurse
  through the dependency tree) is made total with an explicit fuel
  argument; `Outcome.fuelOut` marks fuel exhaustion and is a model
  artifact, distinct from every behavior of the program.
* Rust panics (`unwrap` / `expect` / `Vec::remove` / `Vec::insert` out of
  bounds) are modelled as `Outcome.panicked` with a tag naming the panic
  site; `Result::Err` is modelled as `Outcome.error`.
-/

set_option autoImplicit false

namespace BashBuilder

/-- Characters of a Rust string. -/
abbrev Str := List Char

/-- A filesystem path, as its list of components. -/
abbrev Path := List Str

/-- The filesystem: maps a path to the contents of the file stored there,
or `none` when no readable file exists at that path. -/
abbrev Fs := Path → Option Str

/-- Splits a string at every occurrence of the separator character,
producing one piece more than there are separators (Rust `str::split`). -/
def splitChar (sep : Char) : Str → List Str
  | [] => [[]]
  | c :: rest =>
    if c = sep then [] :: splitChar sep rest
    else
      match splitChar sep rest with
      | [] => [[c]]
      | l :: ls => (c :: l) :: ls

/-- Removes one trailing carriage return, as Rust `str::lines` does on
a line that was terminated by a line feed. -/
def stripCR (s : Str) : Str :=
  if s.getLast? = some '\r' then s.dropLast else s

/-- Turns the pieces of a newline split into the lines Rust `str::lines`
produces: every piece except the last was terminated by a line feed and
has one carriage return before it stripped; the final piece was not
terminated, is kept verbatim (a bare trailing carriage return stays),
and is dropped when empty (the optional final line ending). -/
def rustLinesAux : List Str → List Str
  | [] => []
  | [p] => if p = [] then [] else [p]
  | p :: q :: rest => stripCR p :: rustLinesAux (q :: rest)

/-- Rust `str::lines`: lines are split at `\n` or `\r\n`, the final line
ending is optional, and a carriage return not followed by a line feed is
included in its line. -/
def rustLines (s : Str) : List Str :=
  rustLinesAux (splitChar '\n' s)

/-- Joins lines with newline separators (Rust `Vec::join("\n")`). -/
def joinLines : List Str → Str
  | [] => []
  | [x] => x
  | x :: y :: rest => x ++ '\n' :: joinLines (y :: rest)

/-- Rust `str::strip_prefix`: the remainder of the string after the given
leading pattern, or `none` when the string does not start with it. -/
def dropPre : Str → Str → Option Str
  | [], s => some s
  | _ :: _, [] => none
  | p :: ps, c :: cs => if c = p then dropPre ps cs else none

/-- Rust `Path::parent`: the path without its final component, `none` for
the empty path. -/
def pathParent : Path → Option Path
  | [] => none
  | xs => some xs.dropLast

/-- Rust `PathBuf::push` of a relative token: append the token's
slash-separated components. -/
def pathPush (p : Path) (child : Str) : Path :=
  p ++ splitChar '/' child

/-- Extension of a single file-name component, after Rust `Path`
semantics: the text after the last dot, except that a lone leading dot
marks a hidden file without extension. -/
def componentExtension (s : Str) : Option Str :=
  match splitChar '.' s with
  | [] => none
  | [_] => none
  | [[], _] => none
  | parts => parts.getLast?

/-- Rust `Path::extension`: the extension of the final component. -/
def pathExtension (p : Path) : Option Str :=
  match p.getLast? with
  | none => none
  | some c => componentExtension c

/-- The recognized script extension, `sh`. -/
def shExt : Str := ['s', 'h']

/-- The `# import ` directive marker (comment style). -/
def commentMarker : Str := ['#', ' ', 'i', 'm', 'p', 'o', 'r', 't', ' ']

/-- The `source ` directive marker (source style). -/
def sourceMarker : Str := ['s', 'o', 'u', 'r', 'c', 'e', ' ']

/-- The fixed recursion-depth cutoff used as circularity detector. -/
def CIRCULAR_CUT_OFF : Nat := 512

/-- The `Error` enum of the source (payloads of the `Io` and `Toml`
variants are abstracted away; only the kind matters to control flow). -/
inductive Error : Type where
  | io : Error
  | toml : Error
  | circular : Error
  deriving DecidableEq

/-- The distinct panic sites of the source. -/
inductive PanicKind : Type where
  /-- `self.path.parent().unwrap()` in `BashFile::imports`. -/
  | unwrapNone : PanicKind
  /-- `config.root_path.clone().expect("root path should be checked already")`. -/
  | expectRootPath : PanicKind
  /-- `.parent().expect("file can never be root dir")`. -/
  | expectRootParent : PanicKind
  /-- `Vec::remove` with an out-of-bounds index. -/
  | removeOutOfBounds : PanicKind
  /-- `Vec::insert` with an out-of-bounds index. -/
  | insertOutOfBounds : PanicKind
  deriving DecidableEq

/-- Possible outcomes of running a piece of the program: fuel exhaustion
(model artifact), a Rust panic, `Err(e)`, or `Ok(a)`. -/
inductive Outcome (α : Type) : Type where
  | fuelOut : Outcome α
  | panicked : PanicKind → Outcome α
  | error : Error → Outcome α
  | ok : α → Outcome α

/-- Sequencing in the style of Rust's `?` operator: panics, errors and
fuel exhaustion propagate. -/
def Outcome.bind {α β : Type} : Outcome α → (α → Outcome β) → Outcome β
  | .fuelOut, _ => .fuelOut
  | .panicked k, _ => .panicked k
  | .error e, _ => .error e
  | .ok a, f => f a

@[simp] theorem Outcome.bind_ok {α β : Type} (a : α) (f : α → Outcome β) :
    Outcome.bind (.ok a) f = f a := rfl

@[simp] theorem Outcome.bind_error {α β : Type} (e : Error) (f : α → Outcome β) :
    Outcome.bind (.error e) f = .error e := rfl

@[simp] theorem Outcome.bind_panicked {α β : Type} (k : PanicKind) (f : α → Outcome β) :
    Outcome.bind (.panicked k) f = .panicked k := rfl

@[simp] theorem Outcome.bind_fuelOut {α β : Type} (f : α → Outcome β) :
    Outcome.bind (.fuelOut : Outcome α) f = .fuelOut := rfl

/-- The `Args` struct: the resolved configuration of one run. -/
structure Args : Type where
  root_path : Option Path
  config : Option Path
  replace_source : Bool
  replace_comment : Bool

/-- `Args::default()`: comment style on, source style off. -/
def defaultArgs : Args :=
  { root_path := none, config := none, replace_comment := true, replace_source := false }

/-- The `ImportStyle` enum. -/
inductive ImportStyle : Type where
  | comment : ImportStyle
  | source : ImportStyle
  deriving DecidableEq

/-- The fields of an `ImportStatement`, generic in the type of the
resolved target so that `BashFile` can nest through it. -/
structure ImportStmt (F : Type) : Type where
  line_number : Nat
  line : Str
  text : Str
  path : Path
  style : ImportStyle
  resolved : Option F

/-- The `BashFile` struct: a file being processed, owning the import
statements found in it, each of which may own a resolved target file. -/
inductive BashFile : Type where
  | mk (path : Path) (contents : Option Str)
      (dependents : List (ImportStmt BashFile)) (nested : Nat)

/-- An `ImportStatement` whose resolved target is a `BashFile`. -/
abbrev ImportStatement := ImportStmt BashFile

/-- Field `path` of a `BashFile`. -/
def BashFile.path : BashFile → Path
  | .mk p _ _ _ => p

/-- Field `contents` of a `BashFile`. -/
def BashFile.contents : BashFile → Option Str
  | .mk _ c _ _ => c

/-- Field `dependents` of a `BashFile`. -/
def BashFile.dependents : BashFile → List ImportStatement
  | .mk _ _ d _ => d

/-- Field `nested` of a `BashFile`. -/
def BashFile.nested : BashFile → Nat
  | .mk _ _ _ n => n

/-- `BashFile::new`: only the path is set, the rest is `Default`. -/
def BashFile.new (path : Path) : BashFile := .mk path none [] 0

/-- Assignment to the `contents` field. -/
def BashFile.setContents : BashFile → Option Str → BashFile
  | .mk p _ d n, c => .mk p c d n

/-- Assignment to the `dependents` field. -/
def BashFile.setDependents : BashFile → List ImportStatement → BashFile
  | .mk p c _ n, d => .mk p c d n

/-- Assignment to the `nested` field. -/
def BashFile.setNested : BashFile → Nat → BashFile
  | .mk p c d _, n => .mk p c d n

@[simp] theorem BashFile.path_mk (p : Path) (c : Option Str)
    (d : List ImportStatement) (n : Nat) : (BashFile.mk p c d n).path = p := rfl

@[simp] theorem BashFile.contents_mk (p : Path) (c : Option Str)
    (d : List ImportStatement) (n : Nat) : (BashFile.mk p c d n).contents = c := rfl

@[simp] theorem BashFile.dependents_mk (p : Path) (c : Option Str)
    (d : List ImportStatement) (n : Nat) : (BashFile.mk p c d n).dependents = d := rfl

@[simp] theorem BashFile.nested_mk (p : Path) (c : Option Str)
    (d : List ImportStatement) (n : Nat) : (BashFile.mk p c d n).nested = n := rfl

/-- `BashFile::to_valid_bash_file`: join the base directory with the
token; the candidate is accepted when it exists and has the `sh`
extension. -/
def to_valid_bash_file (fs : Fs) (path : Path) (to_test_file : Str) :
    Option (Str × Path) :=
  if (fs (pathPush path to_test_file)).isSome ∧
      pathExtension (pathPush path to_test_file) = some shExt then
    some (to_test_file, pathPush path to_test_file)
  else none

/-- The source-style half of `BashFile::to_import` (the second `if`
block): only reached when the comment-style block did not return. -/
def to_import_source (fs : Fs) (input : Str) (line_number : Nat)
    (config : Args) : Outcome (Option ImportStatement) :=
  if config.replace_source then
    match dropPre sourceMarker input with
    | none => .ok none
    | some x =>
      match config.root_path with
      | none => .panicked .expectRootPath
      | some rp =>
        match pathParent rp with
        | none => .panicked .expectRootParent
        | some root_parent =>
          match to_valid_bash_file fs root_parent x with
          | none => .ok none
          | some (line_part, resolve_path) =>
            .ok (some { line_number := line_number, line := input,
                        text := line_part, path := resolve_path,
                        style := .source, resolved := none })
  else .ok none

/-- `BashFile::to_import`: try the comment style first; when it does not
produce an import, fall through to the source style. -/
def to_import (fs : Fs) (input : Str) (line_number : Nat) (path : Path)
    (config : Args) : Outcome (Option ImportStatement) :=
  match (if config.replace_comment then
           match dropPre commentMarker input with
           | some x => to_valid_bash_file fs path x
           | none => none
         else none) with
  | some (line_part, resolve_path) =>
    .ok (some { line_number := line_number, line := input, text := line_part,
                path := resolve_path, style := .comment, resolved := none })
  | none => to_import_source fs input line_number config

/-- `BashFile::lines`: the lines of the contents, empty when not yet
loaded. -/
def bashLines (bf : BashFile) : List Str :=
  match bf.contents with
  | none => []
  | some input => rustLines input

/-- The enumerate-and-filter-map loop inside `BashFile::imports`,
starting at the given line index. -/
def collectImports (fs : Fs) (config : Args) (parent : Path) :
    List Str → Nat → Outcome (List ImportStatement)
  | [], _ => .ok []
  | l :: rest, idx =>
    (to_import fs l idx parent config).bind fun res =>
    (collectImports fs config parent rest (idx + 1)).bind fun others =>
    .ok (match res with
         | none => others
         | some imp => imp :: others)

/-- `BashFile::imports`: scan every line with `to_import`, resolving
against the parent directory of the scanned file (whose absence
panics on the `unwrap`). -/
def importsOf (fs : Fs) (bf : BashFile) (config : Args) :
    Outcome (List ImportStatement) :=
  match pathParent bf.path with
  | none => .panicked .unwrapNone
  | some parent => collectImports fs config parent (bashLines bf) 0

/-- `BashFile::load`: read the file at the stored path into `contents`. -/
def load (fs : Fs) (bf : BashFile) : Outcome BashFile :=
  match fs bf.path with
  | none => .error .io
  | some contents => .ok (bf.setContents (some contents))

/-- `Vec::remove`: `none` models the out-of-bounds panic. -/
def vec_remove {α : Type} : List α → Nat → Option (List α)
  | [], _ => none
  | _ :: xs, 0 => some xs
  | x :: xs, n + 1 => (vec_remove xs n).map (x :: ·)

/-- `Vec::insert`: `none` models the out-of-bounds panic. -/
def vec_insert {α : Type} : List α → Nat → α → Option (List α)
  | xs, 0, a => some (a :: xs)
  | [], _ + 1, _ => none
  | x :: xs, n + 1, a => (vec_insert xs n a).map (x :: ·)

/-- The loop body of `BashFile::load_dependents`, iterating over the
scanned imports; `child` performs the `load` + `inner_load_dependents`
of one import's target. -/
def processImports (child : ImportStatement → Outcome BashFile) :
    List ImportStatement → Outcome (List ImportStatement)
  | [] => .ok []
  | imp :: rest =>
    (child imp).bind fun file =>
    (processImports child rest).bind fun others =>
    .ok ({ imp with resolved := some file } :: others)

/-- `BashFile::load_dependents`: scan the imports, and for each one
create a fresh `BashFile`, load it, and recursively load its own
dependents at nesting level `self.nested + 1` (the check against the
cutoff is `inner_load_dependents`, inlined here so that the recursion is
structural on the fuel). -/
def load_dependents : Nat → Fs → BashFile → Args → Outcome BashFile
  | 0, _, _, _ => .fuelOut
  | fuel + 1, fs, bf, config =>
    (importsOf fs bf config).bind fun imps =>
    (processImports (fun imp =>
        (load fs (BashFile.new imp.path)).bind fun file =>
        if bf.nested + 1 > CIRCULAR_CUT_OFF then .error .circular
        else load_dependents fuel fs (file.setNested (bf.nested + 1)) config)
      imps).bind fun deps =>
    .ok (bf.setDependents deps)

/-- `BashFile::inner_load_dependents`: abort with the circular error when
the new nesting level exceeds the cutoff, otherwise record it and load
dependents. -/
def inner_load_dependents (fuel : Nat) (fs : Fs) (bf : BashFile)
    (nested : Nat) (config : Args) : Outcome BashFile :=
  if nested > CIRCULAR_CUT_OFF then .error .circular
  else load_dependents fuel fs (bf.setNested nested) config

/-- `contents.unwrap_or(String::new())` on the flattened dependent. -/
def contentsOrEmpty (bf : BashFile) : Str :=
  match bf.contents with
  | none => []
  | some c => c

/-- The loop body of `BashFile::resolve_dependents`: for each import with
a resolved target, run `child` on the target (re-load and flatten it),
then remove the directive line and insert the flattened text at the same
index. -/
def substImports (child : BashFile → Outcome BashFile) :
    List ImportStatement → List Str → Outcome (List Str)
  | [], lines => .ok lines
  | imp :: rest, lines =>
    match imp.resolved with
    | none => substImports child rest lines
    | some dep =>
      (child dep).bind fun loaded_dep =>
      match vec_remove lines imp.line_number with
      | none => .panicked .removeOutOfBounds
      | some removed =>
        match vec_insert removed imp.line_number (contentsOrEmpty loaded_dep) with
        | none => .panicked .insertOutOfBounds
        | some lines2 => substImports child rest lines2

/-- `BashFile::resolve_dependents`: split the contents into lines,
substitute every import (incrementing the target's nesting counter,
re-loading its dependents, and flattening it first), join the lines back
and clear the dependents list. -/
def resolve_dependents : Nat → Fs → BashFile → Args → Outcome BashFile
  | 0, _, _, _ => .fuelOut
  | fuel + 1, fs, bf, config =>
    (substImports (fun dep =>
        (load_dependents fuel fs (dep.setNested (dep.nested + 1)) config).bind fun ld =>
        resolve_dependents fuel fs ld config)
      bf.dependents (bashLines bf)).bind fun lines =>
    .ok ((bf.setContents (some (joinLines lines))).setDependents [])

/-- `BashFile::resolve`: load the root file, load its dependency tree,
flatten. -/
def resolve (fuel : Nat) (fs : Fs) (path : Path) (config : Args) :
    Outcome BashFile :=
  (load fs (BashFile.new path)).bind fun f =>
  (load_dependents fuel fs f config).bind fun f2 =>
  resolve_dependents fuel fs f2 config

/-- The `Display` implementation of `BashFile`: the contents, or the
empty string when not loaded. -/
def displayBashFile (bf : BashFile) : Str :=
  match bf.contents with
  | none => []
  | some contents => contents

/-- `inner_main`, after argument/config parsing: resolve the root path
when present, otherwise fail with a not-found I/O error. -/
def inner_main (fuel : Nat) (fs : Fs) (args : Args) : Outcome Str :=
  match args.root_path with
  | some x => (resolve fuel fs x args).bind fun bash_file =>
      .ok (displayBashFile bash_file)
  | none => .error .io

/-! ### Lemmas about the line splitting and joining primitives -/

theorem splitChar_ne_nil (sep : Char) (s : Str) : splitChar sep s ≠ [] := by
  cases s with
  | nil => simp [splitChar]
  | cons c rest =>
    simp only [splitChar]
    split
    · simp
    · cases h : splitChar sep rest <;> simp

@[simp] theorem joinLines_cons_cons (x y : Str) (rest : List Str) :
    joinLines (x :: y :: rest) = x ++ '\n' :: joinLines (y :: rest) := rfl

theorem joinLines_splitChar (s : Str) : joinLines (splitChar '\n' s) = s := by
  induction s with
  | nil => rfl
  | cons c rest ih =>
    simp only [splitChar]
    by_cases hc : c = '\n'
    · subst hc
      simp only [if_pos rfl]
      cases h : splitChar '\n' rest with
      | nil => exact absurd h (splitChar_ne_nil _ _)
      | cons l ls =>
        rw [h] at ih
        simp [joinLines, ih]
    · rw [if_neg hc]
      cases h : splitChar '\n' rest with
      | nil => exact absurd h (splitChar_ne_nil _ _)
      | cons l ls =>
        rw [h] at ih
        cases ls with
        | nil => simpa [joinLines] using ih
        | cons l2 ls2 => simpa [joinLines] using ih

theorem mem_of_mem_splitChar {sep : Char} {s piece : Str} {c : Char}
    (hp : piece ∈ splitChar sep s) (hc : c ∈ piece) : c ∈ s := by
  induction s generalizing piece with
  | nil =>
    simp [splitChar] at hp
    subst hp
    simp at hc
  | cons a rest ih =>
    simp only [splitChar] at hp
    by_cases ha : a = sep
    · rw [if_pos ha] at hp
      rcases List.mem_cons.mp hp with h | h
      · subst h; simp at hc
      · exact List.mem_cons_of_mem _ (ih h hc)
    · rw [if_neg ha] at hp
      cases hsp : splitChar sep rest with
      | nil => exact absurd hsp (splitChar_ne_nil _ _)
      | cons l ls =>
        rw [hsp] at hp
        rcases List.mem_cons.mp hp with h | h
        · subst h
          rcases List.mem_cons.mp hc with h2 | h2
          · exact h2 ▸ List.mem_cons_self _ _
          · exact List.mem_cons_of_mem _ (ih (hsp ▸ List.mem_cons_self l ls) h2)
        · exact List.mem_cons_of_mem _ (ih (hsp ▸ List.mem_cons_of_mem l h) hc)

theorem map_id_of_forall {α : Type} :
    ∀ (l : List α) (f : α → α), (∀ a ∈ l, f a = a) → l.map f = l
  | [], _, _ => rfl
  | x :: xs, f, h => by
    simp only [List.map_cons]
    rw [h x (List.mem_cons_self _ _), map_id_of_forall xs f
      (fun a ha => h a (List.mem_cons_of_mem _ ha))]

theorem getLast?_mem' {α : Type} : ∀ (l : List α) (a : α), l.getLast? = some a → a ∈ l
  | [], a, h => by simp at h
  | [x], a, h => by
    simp [List.getLast?] at h
    simp [h]
  | x :: y :: rest, a, h => by
    rw [List.getLast?_cons_cons] at h
    exact List.mem_cons_of_mem _ (getLast?_mem' (y :: rest) a h)

theorem stripCR_eq_of_not_mem {p : Str} (h : '\r' ∉ p) : stripCR p = p := by
  unfold stripCR
  split
  · next hl => exact absurd (getLast?_mem' p _ hl) h
  · rfl

theorem splitChar_getLast_ne_nil :
    ∀ (s : Str), s ≠ [] → s.getLast? ≠ some '\n' →
      (splitChar '\n' s).getLast? ≠ some ([] : Str) := by
  intro s
  induction s with
  | nil => intro h; exact absurd rfl h
  | cons a rest ih =>
    intro _ hlast
    simp only [splitChar]
    cases rest with
    | nil =>
      have ha : a ≠ '\n' := by
        intro h; exact hlast (by simp [h, List.getLast?])
      rw [if_neg ha]
      simp [splitChar, List.getLast?]
    | cons b rest2 =>
      have hlast2 : (b :: rest2).getLast? ≠ some '\n' := by
        rwa [List.getLast?_cons_cons] at hlast
      have hne : (b :: rest2) ≠ [] := by simp
      have ihr := ih hne hlast2
      by_cases ha : a = '\n'
      · rw [if_pos ha]
        cases hsp : splitChar '\n' (b :: rest2) with
        | nil => exact absurd hsp (splitChar_ne_nil _ _)
        | cons l ls =>
          rw [hsp] at ihr
          rw [List.getLast?_cons_cons]
          exact ihr
      · rw [if_neg ha]
        cases hsp : splitChar '\n' (b :: rest2) with
        | nil => exact absurd hsp (splitChar_ne_nil _ _)
        | cons l ls =>
          rw [hsp] at ihr
          cases ls with
          | nil => simp [List.getLast?]
          | cons l2 ls2 =>
            rw [List.getLast?_cons_cons]
            rwa [List.getLast?_cons_cons] at ihr

theorem exists_append_of_getLast {α : Type} :
    ∀ (l : List α) (a : α), l.getLast? = some a → ∃ f, l = f ++ [a]
  | [], _, h => by simp at h
  | [x], a, h => by
    have hx : x = a := by simpa using h
    exact ⟨[], by rw [hx]; rfl⟩
  | x :: y :: rest, a, h => by
    rw [List.getLast?_cons_cons] at h
    obtain ⟨f, hf⟩ := exists_append_of_getLast (y :: rest) a h
    exact ⟨x :: f, by rw [List.cons_append, ← hf]⟩

theorem rustLinesAux_ne_nil :
    ∀ (ps : List Str), ps ≠ [] → ps.getLast? ≠ some ([] : Str) →
      rustLinesAux ps ≠ []
  | [], h, _ => absurd rfl h
  | [p], _, h2 => by
    have hp : p ≠ [] := by
      intro he
      apply h2
      rw [he]
      simp
    simp only [rustLinesAux]
    rw [if_neg hp]
    simp
  | p :: q :: rest, _, _ => by simp [rustLinesAux]

/-- When the final piece is nonempty and no earlier piece ends with a
carriage return, the Rust line mapping leaves the pieces untouched. -/
theorem joinLines_rustLinesAux :
    ∀ (ps : List Str), ps.getLast? ≠ some ([] : Str) →
      (∀ p ∈ ps.dropLast, p.getLast? ≠ some '\r') →
      joinLines (rustLinesAux ps) = joinLines ps
  | [], _, _ => rfl
  | [p], h1, _ => by
    have hp : p ≠ [] := by
      intro he
      apply h1
      rw [he]
      simp
    simp only [rustLinesAux]
    rw [if_neg hp]
  | p :: q :: rest, h1, h2 => by
    have hdl : (p :: q :: rest).dropLast = p :: (q :: rest).dropLast := rfl
    have hp : stripCR p = p := by
      unfold stripCR
      rw [if_neg (h2 p (by rw [hdl]; exact List.mem_cons_self _ _))]
    have h1t : (q :: rest).getLast? ≠ some ([] : Str) := by
      rwa [List.getLast?_cons_cons] at h1
    have h2t : ∀ x ∈ (q :: rest).dropLast, x.getLast? ≠ some '\r' := by
      intro x hx
      exact h2 x (by rw [hdl]; exact List.mem_cons_of_mem _ hx)
    have ih := joinLines_rustLinesAux (q :: rest) h1t h2t
    simp only [rustLinesAux]
    rw [hp]
    cases haux : rustLinesAux (q :: rest) with
    | nil => exact absurd haux (rustLinesAux_ne_nil (q :: rest) (by simp) h1t)
    | cons y ys =>
      rw [haux] at ih
      rw [joinLines_cons_cons, joinLines_cons_cons, ih]

/-- Under no `\r\n` pair in the string, no piece of the newline split
other than the final one ends with a carriage return. -/
theorem splitChar_dropLast_no_cr :
    ∀ (s : Str), ¬ (['\r', '\n'] <:+: s) →
      ∀ p ∈ (splitChar '\n' s).dropLast, p.getLast? ≠ some '\r'
  | [], _, p, hp => by simp [splitChar] at hp
  | c :: rest, hin, p, hp => by
    have hin2 : ¬ (['\r', '\n'] <:+: rest) := by
      intro h
      obtain ⟨u, v, huv⟩ := h
      exact hin ⟨c :: u, v, by rw [List.cons_append, List.cons_append, huv]⟩
    by_cases hc : c = '\n'
    · subst hc
      rw [show splitChar '\n' ('\n' :: rest) = [] :: splitChar '\n' rest
        from by simp [splitChar]] at hp
      cases hsp : splitChar '\n' rest with
      | nil => exact absurd hsp (splitChar_ne_nil _ _)
      | cons l ls =>
        rw [hsp] at hp
        rw [show (([] : Str) :: l :: ls).dropLast = [] :: (l :: ls).dropLast from rfl] at hp
        rcases List.mem_cons.mp hp with heq | hmem
        · subst heq
          simp
        · exact splitChar_dropLast_no_cr rest hin2 p (hsp ▸ hmem)
    · simp only [splitChar, if_neg hc] at hp
      cases hsp : splitChar '\n' rest with
      | nil => exact absurd hsp (splitChar_ne_nil _ _)
      | cons l ls =>
        rw [hsp] at hp
        cases ls with
        | nil => simp at hp
        | cons q ls2 =>
          rw [show ((c :: l) :: q :: ls2).dropLast = (c :: l) :: (q :: ls2).dropLast
            from rfl] at hp
          have hrest : rest = l ++ '\n' :: joinLines (q :: ls2) := by
            have hj := joinLines_splitChar rest
            rw [hsp, joinLines_cons_cons] at hj
            exact hj.symm
          rcases List.mem_cons.mp hp with heq | hmem
          · subst heq
            intro hlast
            obtain ⟨front, hfront⟩ := exists_append_of_getLast (c :: l) '\r' hlast
            apply hin
            refine ⟨front, joinLines (q :: ls2), ?_⟩
            rw [hrest, show c :: (l ++ '\n' :: joinLines (q :: ls2)) =
              (c :: l) ++ '\n' :: joinLines (q :: ls2) from rfl, hfront]
            simp
          · refine splitChar_dropLast_no_cr rest hin2 p ?_
            rw [hsp, show (l :: q :: ls2).dropLast = l :: (q :: ls2).dropLast from rfl]
            exact List.mem_cons_of_mem _ hmem

/-- On a string with no carriage-return-line-feed pair and no final
newline, the split-into-lines / join-with-newlines round trip is the
identity. -/
theorem joinLines_rustLines {s : Str} (hin : ¬ (['\r', '\n'] <:+: s))
    (hnl : s.getLast? ≠ some '\n') : joinLines (rustLines s) = s := by
  cases hs : s with
  | nil => rfl
  | cons a rest =>
    subst hs
    unfold rustLines
    rw [joinLines_rustLinesAux (splitChar '\n' (a :: rest))
      (splitChar_getLast_ne_nil (a :: rest) (by simp) hnl)
      (splitChar_dropLast_no_cr (a :: rest) hin)]
    exact joinLines_splitChar _

/-! ### Claim C1 -/

/-- C1, counterexample: a File Unit with zero Import Descriptors whose
contents end with a newline is NOT returned unchanged by flattening: the
contents `"a\n"` flatten to `"a"`, losing the trailing newline. -/
theorem c1_trailing_newline_counterexample :
    resolve_dependents 1 (fun _ => none)
        (BashFile.mk [] (some ['a', '\n']) [] 0) defaultArgs =
      .ok (BashFile.mk [] (some ['a']) [] 0) ∧
    (['a'] : Str) ≠ ['a', '\n'] := by
  exact ⟨rfl, by decide⟩

/-- C1, amended: flattening a File Unit with zero Import Descriptors
returns its contents split into lines (Rust `str::lines`, which drops a
final line ending and strips a carriage return standing immediately
before a line feed, while keeping any other carriage return) and
re-joined with single newlines; in particular the contents are returned
unchanged whenever they contain no carriage-return-line-feed pair and do
not end with a newline. -/
theorem c1_flatten_no_imports (fuel : Nat) (fs : Fs) (bf : BashFile)
    (config : Args) (s : Str) (hfuel : 1 ≤ fuel)
    (hdeps : bf.dependents = []) (hc : bf.contents = some s) :
    resolve_dependents fuel fs bf config =
      .ok ((bf.setContents (some (joinLines (rustLines s)))).setDependents []) ∧
    (¬ (['\r', '\n'] <:+: s) → s.getLast? ≠ some '\n' →
      joinLines (rustLines s) = s) := by
  constructor
  · cases fuel with
    | zero => omega
    | succ fuel =>
      simp only [resolve_dependents, hdeps, substImports, bashLines, hc,
        Outcome.bind_ok]
  · intro hin hnl
    exact joinLines_rustLines hin hnl

/-- C1, witness: the amended theorem applied to a one-line file with
contents `"a"`. -/
theorem c1_witness :
    resolve_dependents 1 (fun _ => none)
        (BashFile.mk [] (some ['a']) [] 0) defaultArgs =
      .ok (BashFile.mk [] (some (joinLines (rustLines ['a']))) [] 0) ∧
    joinLines (rustLines ['a']) = ['a'] := by
  have h := c1_flatten_no_imports 1 (fun _ => none)
    (BashFile.mk [] (some ['a']) [] 0) defaultArgs ['a']
    (by omega) rfl rfl
  exact ⟨h.1, h.2 (by decide) (by decide)⟩

/-! ### Lemmas about the directive scanner -/

theorem dropPre_head {p : Char} {ps s : Str} {x : Str}
    (h : dropPre (p :: ps) s = some x) : ∃ cs, s = p :: cs := by
  cases s with
  | nil => simp [dropPre] at h
  | cons c cs =>
    simp only [dropPre] at h
    by_cases hc : c = p
    · exact ⟨cs, by rw [hc]⟩
    · rw [if_neg hc] at h; simp at h

/-- A line recognized by the source-style marker does not start with the
comment-style marker. -/
theorem comment_none_of_source {input x : Str}
    (h : dropPre sourceMarker input = some x) :
    dropPre commentMarker input = none := by
  obtain ⟨cs, rfl⟩ := dropPre_head (p := 's') h
  simp [commentMarker, dropPre]

/-- A line recognized by the comment-style marker does not start with the
source-style marker. -/
theorem source_none_of_comment {input x : Str}
    (h : dropPre commentMarker input = some x) :
    dropPre sourceMarker input = none := by
  obtain ⟨cs, rfl⟩ := dropPre_head (p := '#') h
  simp [sourceMarker, dropPre]

theorem to_valid_bash_file_some {fs : Fs} {base : Path} {x lp : Str} {rp : Path}
    (h : to_valid_bash_file fs base x = some (lp, rp)) :
    lp = x ∧ rp = pathPush base x := by
  unfold to_valid_bash_file at h
  split at h
  · have h2 := Option.some.inj h
    exact ⟨(Prod.ext_iff.mp h2).1.symm, (Prod.ext_iff.mp h2).2.symm⟩
  · simp at h

/-- When the comment-style branch of `to_import` produces a candidate,
its path is the token joined to the scan base directory. -/
theorem comment_cand_some {fs : Fs} {base : Path} {input : Str}
    {config : Args} {lp : Str} {rp : Path}
    (h : (if config.replace_comment = true then
            match dropPre commentMarker input with
            | some x => to_valid_bash_file fs base x
            | none => none
          else none) = some (lp, rp)) : rp = pathPush base lp := by
  split at h
  · split at h
    · next x hx =>
      obtain ⟨hlp, hrp⟩ := to_valid_bash_file_some h
      rw [hrp, hlp]
    · simp at h
  · simp at h

/-- Shape of a successfully produced import statement: the line number
and raw line are those scanned, a comment-style import resolves against
the scan base directory, a source-style one against the parent of the
configured root path. -/
theorem to_import_ok_some {fs : Fs} {input : Str} {n : Nat} {base : Path}
    {config : Args} {imp : ImportStatement}
    (h : to_import fs input n base config = .ok (some imp)) :
    imp.line_number = n ∧ imp.line = input ∧ imp.resolved = none ∧
    (imp.style = .comment → imp.path = pathPush base imp.text) ∧
    (imp.style = .source → ∃ rp pp, config.root_path = some rp ∧
      pathParent rp = some pp ∧ imp.path = pathPush pp imp.text) := by
  unfold to_import at h
  split at h
  · next lp rp heq =>
    have himp : imp = { line_number := n, line := input, text := lp,
                        path := rp, style := .comment, resolved := none } :=
      (Option.some.inj (Outcome.ok.inj h)).symm
    subst himp
    exact ⟨rfl, rfl, rfl, fun _ => comment_cand_some heq,
      fun hs => ImportStyle.noConfusion hs⟩
  · next heq =>
    unfold to_import_source at h
    split at h
    · split at h
      · simp at h
      · next x hx =>
        split at h
        · simp at h
        · next rp hroot =>
          split at h
          · simp at h
          · next pp hpar =>
            split at h
            · simp at h
            · next lp rpath hval =>
              have himp : imp = { line_number := n, line := input, text := lp,
                                  path := rpath, style := .source, resolved := none } :=
                (Option.some.inj (Outcome.ok.inj h)).symm
              subst himp
              obtain ⟨hlp, hrp⟩ := to_valid_bash_file_some hval
              refine ⟨rfl, rfl, rfl, fun hc => ImportStyle.noConfusion hc,
                fun _ => ⟨rp, pp, hroot, hpar, ?_⟩⟩
              rw [hrp, hlp]
    · simp at h

/-- Every import in the list produced by the scanning loop comes from a
successful `to_import` on one of the scanned lines. -/
theorem collectImports_mem {fs : Fs} {config : Args} {parent : Path} :
    ∀ {lines : List Str} {idx : Nat} {imps : List ImportStatement},
      collectImports fs config parent lines idx = .ok imps →
      ∀ imp ∈ imps, ∃ l i, to_import fs l i parent config = .ok (some imp)
  | [], idx, imps, h => by
    simp only [collectImports] at h
    have := Outcome.ok.inj h
    subst this
    intro imp hmem
    simp at hmem
  | l :: rest, idx, imps, h => by
    simp only [collectImports] at h
    match hto : to_import fs l idx parent config with
    | .fuelOut => rw [hto] at h; simp [Outcome.bind] at h
    | .panicked k => rw [hto] at h; simp [Outcome.bind] at h
    | .error e => rw [hto] at h; simp [Outcome.bind] at h
    | .ok res =>
      rw [hto] at h
      rw [Outcome.bind_ok] at h
      match hrec : collectImports fs config parent rest (idx + 1) with
      | .fuelOut => rw [hrec] at h; simp [Outcome.bind] at h
      | .panicked k => rw [hrec] at h; simp [Outcome.bind] at h
      | .error e => rw [hrec] at h; simp [Outcome.bind] at h
      | .ok others =>
        rw [hrec] at h
        rw [Outcome.bind_ok] at h
        have hlist := Outcome.ok.inj h
        intro imp hmem
        rw [← hlist] at hmem
        match res with
        | none =>
          exact collectImports_mem hrec imp hmem
        | some i0 =>
          rcases List.mem_cons.mp hmem with heq | hmem2
          · exact ⟨l, idx, heq ▸ hto⟩
          · exact collectImports_mem hrec imp hmem2

/-! ### Claim C4 -/

/-- C4: for every import discovered by scanning a File Unit, a
comment-style import's path is the path token joined to the parent
directory of the scanned file itself, while a source-style import's path
is the token joined to the parent directory of the configured root file,
independent of the scanned file. -/
theorem c4_resolution_base (fs : Fs) (bf : BashFile) (config : Args)
    (imps : List ImportStatement)
    (himps : importsOf fs bf config = .ok imps)
    (imp : ImportStatement) (hmem : imp ∈ imps) :
    ∃ par, pathParent bf.path = some par ∧
      (imp.style = .comment → imp.path = pathPush par imp.text) ∧
      (imp.style = .source → ∃ rp pp, config.root_path = some rp ∧
        pathParent rp = some pp ∧ imp.path = pathPush pp imp.text) := by
  unfold importsOf at himps
  match hpar : pathParent bf.path with
  | none => rw [hpar] at himps; simp at himps
  | some par =>
    rw [hpar] at himps
    obtain ⟨l, i, hto⟩ := collectImports_mem himps imp hmem
    obtain ⟨_, _, _, hcomment, hsource⟩ := to_import_ok_some hto
    exact ⟨par, rfl, hcomment, hsource⟩

/-- C4, witness: a file in directory `d` whose comment-style import of
token `./u.sh` resolves relative to `d`. -/
theorem c4_witness :
    ∃ par, pathParent ([['d'], ['f', '.', 's', 'h']] : Path) = some par ∧
      ([['d'], ['.'], ['u', '.', 's', 'h']] : Path) =
        pathPush par ['.', '/', 'u', '.', 's', 'h'] := by
  have h := c4_resolution_base
    (fun p => if p = [['d'], ['.'], ['u', '.', 's', 'h']] then some ['x'] else none)
    (BashFile.mk [['d'], ['f', '.', 's', 'h']]
      (some (commentMarker ++ ['.', '/', 'u', '.', 's', 'h'])) [] 0)
    defaultArgs
    [{ line_number := 0, line := commentMarker ++ ['.', '/', 'u', '.', 's', 'h'],
                         text := ['.', '/', 'u', '.', 's', 'h'],
                         path := [['d'], ['.'], ['u', '.', 's', 'h']],
                         style := .comment, resolved := none }]
    (by rfl) _ (List.mem_singleton.mpr rfl)
  obtain ⟨par, hpar, hcomment, _⟩ := h
  exact ⟨par, hpar, hcomment rfl⟩

/-! ### Claim C9 -/

/-- C9: with source-style enabled but no configured root path, scanning
any line that starts with the `source ` marker panics on the `expect`
over `root_path`. -/
theorem c9_source_root_path_panic (fs : Fs) (input : Str) (n : Nat)
    (base : Path) (config : Args) (x : Str)
    (hsrc : config.replace_source = true)
    (hroot : config.root_path = none)
    (hpre : dropPre sourceMarker input = some x) :
    to_import fs input n base config = .panicked .expectRootPath := by
  unfold to_import
  have hcomment := comment_none_of_source hpre
  have hfall : (if config.replace_comment then
      match dropPre commentMarker input with
      | some x => to_valid_bash_file fs base x
      | none => none
    else none) = none := by
    split
    · rw [hcomment]
    · rfl
  rw [hfall]
  unfold to_import_source
  rw [hsrc, if_pos rfl, hpre, hroot]

/-- C9, witness: the panic at a concrete line `source u.sh` under a
configuration with source style on and no root path. -/
theorem c9_witness :
    to_import (fun _ => none) (sourceMarker ++ ['u', '.', 's', 'h']) 0 []
      { root_path := none, config := none,
        replace_source := true, replace_comment := true } =
      .panicked .expectRootPath := by
  exact c9_source_root_path_panic _ _ _ _ _ ['u', '.', 's', 'h'] rfl rfl (by decide)

/-! ### Field lemmas for the BashFile setters -/

@[simp] theorem BashFile.contents_setContents (bf : BashFile) (c : Option Str) :
    (bf.setContents c).contents = c := by cases bf; rfl

@[simp] theorem BashFile.dependents_setContents (bf : BashFile) (c : Option Str) :
    (bf.setContents c).dependents = bf.dependents := by cases bf; rfl

@[simp] theorem BashFile.path_setContents (bf : BashFile) (c : Option Str) :
    (bf.setContents c).path = bf.path := by cases bf; rfl

@[simp] theorem BashFile.nested_setContents (bf : BashFile) (c : Option Str) :
    (bf.setContents c).nested = bf.nested := by cases bf; rfl

@[simp] theorem BashFile.contents_setDependents (bf : BashFile) (d : List ImportStatement) :
    (bf.setDependents d).contents = bf.contents := by cases bf; rfl

@[simp] theorem BashFile.dependents_setDependents (bf : BashFile) (d : List ImportStatement) :
    (bf.setDependents d).dependents = d := by cases bf; rfl

@[simp] theorem BashFile.path_setDependents (bf : BashFile) (d : List ImportStatement) :
    (bf.setDependents d).path = bf.path := by cases bf; rfl

@[simp] theorem BashFile.nested_setDependents (bf : BashFile) (d : List ImportStatement) :
    (bf.setDependents d).nested = bf.nested := by cases bf; rfl

@[simp] theorem BashFile.contents_setNested (bf : BashFile) (n : Nat) :
    (bf.setNested n).contents = bf.contents := by cases bf; rfl

@[simp] theorem BashFile.dependents_setNested (bf : BashFile) (n : Nat) :
    (bf.setNested n).dependents = bf.dependents := by cases bf; rfl

@[simp] theorem BashFile.path_setNested (bf : BashFile) (n : Nat) :
    (bf.setNested n).path = bf.path := by cases bf; rfl

@[simp] theorem BashFile.nested_setNested (bf : BashFile) (n : Nat) :
    (bf.setNested n).nested = n := by cases bf; rfl

@[simp] theorem bashLines_setDependents (bf : BashFile) (d : List ImportStatement) :
    bashLines (bf.setDependents d) = bashLines bf := by
  unfold bashLines; rw [BashFile.contents_setDependents]

@[simp] theorem bashLines_setNested (bf : BashFile) (n : Nat) :
    bashLines (bf.setNested n) = bashLines bf := by
  unfold bashLines; rw [BashFile.contents_setNested]

/-! ### Lemmas about the vector remove / insert primitives -/

theorem vec_remove_of_lt {α : Type} :
    ∀ (xs : List α) (i : Nat), i < xs.length → ∃ ys, vec_remove xs i = some ys
  | [], i, h => absurd h (by simp)
  | _ :: xs, 0, _ => ⟨xs, rfl⟩
  | x :: xs, n + 1, h => by
    obtain ⟨ys, hy⟩ := vec_remove_of_lt xs n (Nat.lt_of_succ_lt_succ h)
    exact ⟨x :: ys, by simp [vec_remove, hy]⟩

theorem vec_remove_lt {α : Type} :
    ∀ {xs : List α} {i : Nat} {ys : List α}, vec_remove xs i = some ys → i < xs.length
  | [], i, ys, h => by simp [vec_remove] at h
  | x :: xs, 0, ys, _ => Nat.succ_pos _
  | x :: xs, n + 1, ys, h => by
    simp only [vec_remove] at h
    cases hrec : vec_remove xs n with
    | none => rw [hrec] at h; simp at h
    | some ys2 =>
      exact Nat.succ_lt_succ (vec_remove_lt hrec)

/-- Removing the element at an in-range index and inserting a value back
at the same index is exactly `List.set`. -/
theorem vec_remove_insert_set {α : Type} :
    ∀ {xs : List α} {i : Nat} {ys : List α} (a : α),
      vec_remove xs i = some ys → vec_insert ys i a = some (xs.set i a)
  | [], i, ys, a, h => by simp [vec_remove] at h
  | x :: xs, 0, ys, a, h => by
    simp only [vec_remove] at h
    have := Option.some.inj h
    subst this
    simp [vec_insert, List.set]
  | x :: xs, n + 1, ys, a, h => by
    simp only [vec_remove] at h
    cases hrec : vec_remove xs n with
    | none => rw [hrec] at h; simp at h
    | some ys2 =>
      rw [hrec] at h
      simp only [Option.map_some'] at h
      have := Option.some.inj h
      subst this
      simp only [vec_insert, vec_remove_insert_set a hrec, Option.map_some', List.set]

theorem getElem?_set_ne {α : Type} :
    ∀ (xs : List α) (i j : Nat) (a : α), i ≠ j → (xs.set i a)[j]? = xs[j]?
  | [], _, _, _, _ => by simp
  | x :: xs, 0, 0, a, h => absurd rfl h
  | x :: xs, 0, j + 1, a, _ => by simp [List.set]
  | x :: xs, i + 1, 0, a, _ => by simp [List.set]
  | x :: xs, i + 1, j + 1, a, h => by
    simp only [List.set, List.getElem?_cons_succ]
    exact getElem?_set_ne xs i j a (fun e => h (by rw [e]))

theorem getElem?_set_self {α : Type} :
    ∀ (xs : List α) (i : Nat) (a : α), i < xs.length → (xs.set i a)[i]? = some a
  | [], i, a, h => absurd h (by simp)
  | x :: xs, 0, a, _ => by simp [List.set]
  | x :: xs, i + 1, a, h => by
    simp only [List.set, List.getElem?_cons_succ]
    exact getElem?_set_self xs i a (Nat.lt_of_succ_lt_succ h)

/-! ### Lemmas about the substitution loop of resolve_dependents -/

theorem substImports_cons_none {child : BashFile → Outcome BashFile}
    {imp : ImportStatement} {rest : List ImportStatement} {lines : List Str}
    (h : imp.resolved = none) :
    substImports child (imp :: rest) lines = substImports child rest lines := by
  simp only [substImports]
  rw [h]

theorem substImports_cons_some {child : BashFile → Outcome BashFile}
    {imp : ImportStatement} {rest : List ImportStatement} {lines : List Str}
    {dep : BashFile} (h : imp.resolved = some dep) :
    substImports child (imp :: rest) lines =
      (child dep).bind fun loaded_dep =>
        match vec_remove lines imp.line_number with
        | none => .panicked .removeOutOfBounds
        | some removed =>
          match vec_insert removed imp.line_number (contentsOrEmpty loaded_dep) with
          | none => .panicked .insertOutOfBounds
          | some lines2 => substImports child rest lines2 := by
  simp only [substImports]
  rw [h]

/-- On success, the substitution loop preserves the number of line
slots. -/
theorem substImports_length {child : BashFile → Outcome BashFile} :
    ∀ {imps : List ImportStatement} {lines out : List Str},
      substImports child imps lines = .ok out → out.length = lines.length
  | [], lines, out, h => by
    simp only [substImports] at h
    rw [← Outcome.ok.inj h]
  | imp :: rest, lines, out, h => by
    cases hres : imp.resolved with
    | none =>
      rw [substImports_cons_none hres] at h
      exact substImports_length h
    | some dep =>
      rw [substImports_cons_some hres] at h
      cases hchild : child dep with
      | fuelOut => rw [hchild] at h; simp [Outcome.bind] at h
      | panicked k => rw [hchild] at h; simp [Outcome.bind] at h
      | error e => rw [hchild] at h; simp [Outcome.bind] at h
      | ok ld =>
        rw [hchild, Outcome.bind_ok] at h
        cases hrem : vec_remove lines imp.line_number with
        | none => rw [hrem] at h; simp at h
        | some removed =>
          rw [hrem] at h
          have hset := vec_remove_insert_set (contentsOrEmpty ld) hrem
          simp only [hset] at h
          have := substImports_length h
          rw [this, List.length_set]

/-- On success, a line slot whose index is not the line number of
any import in the list is left exactly as it was. -/
theorem substImports_untouched {child : BashFile → Outcome BashFile} :
    ∀ {imps : List ImportStatement} {lines out : List Str} {i : Nat},
      substImports child imps lines = .ok out →
      (∀ imp ∈ imps, imp.line_number ≠ i) → out[i]? = lines[i]?
  | [], lines, out, i, h, _ => by
    simp only [substImports] at h
    rw [← Outcome.ok.inj h]
  | imp :: rest, lines, out, i, h, hni => by
    cases hres : imp.resolved with
    | none =>
      rw [substImports_cons_none hres] at h
      exact substImports_untouched h fun x hx => hni x (List.mem_cons_of_mem _ hx)
    | some dep =>
      rw [substImports_cons_some hres] at h
      cases hchild : child dep with
      | fuelOut => rw [hchild] at h; simp [Outcome.bind] at h
      | panicked k => rw [hchild] at h; simp [Outcome.bind] at h
      | error e => rw [hchild] at h; simp [Outcome.bind] at h
      | ok ld =>
        rw [hchild, Outcome.bind_ok] at h
        cases hrem : vec_remove lines imp.line_number with
        | none => rw [hrem] at h; simp at h
        | some removed =>
          rw [hrem] at h
          have hset := vec_remove_insert_set (contentsOrEmpty ld) hrem
          simp only [hset] at h
          have huntouched := substImports_untouched h
            fun x hx => hni x (List.mem_cons_of_mem _ hx)
          rw [huntouched, getElem?_set_ne _ _ _ _ (hni imp (List.mem_cons_self _ _))]

/-- On success with pairwise-distinct in-range line numbers, the slot at
each import's line number holds the flattened contents of the child run
on that import's resolved target. -/
theorem substImports_at_import {child : BashFile → Outcome BashFile} :
    ∀ {imps : List ImportStatement} {lines out : List Str},
      List.Pairwise (fun a b => a.line_number ≠ b.line_number) imps →
      substImports child imps lines = .ok out →
      ∀ imp ∈ imps, ∀ dep, imp.resolved = some dep →
        imp.line_number < lines.length →
        ∃ flat, child dep = .ok flat ∧
          out[imp.line_number]? = some (contentsOrEmpty flat)
  | [], lines, out, _, h, imp, hmem, _, _, _ => by simp at hmem
  | imp0 :: rest, lines, out, hpw, h, imp, hmem, dep, hdep, hlt => by
    rcases List.mem_cons.mp hmem with heq | hmem2
    · subst heq
      rw [substImports_cons_some hdep] at h
      cases hchild : child dep with
      | fuelOut => rw [hchild] at h; simp [Outcome.bind] at h
      | panicked k => rw [hchild] at h; simp [Outcome.bind] at h
      | error e => rw [hchild] at h; simp [Outcome.bind] at h
      | ok ld =>
        rw [hchild, Outcome.bind_ok] at h
        cases hrem : vec_remove lines imp.line_number with
        | none => rw [hrem] at h; simp at h
        | some removed =>
          rw [hrem] at h
          have hset := vec_remove_insert_set (contentsOrEmpty ld) hrem
          simp only [hset] at h
          refine ⟨ld, rfl, ?_⟩
          have hne : ∀ x ∈ rest, x.line_number ≠ imp.line_number :=
            fun x hx => ((List.pairwise_cons.mp hpw).1 x hx).symm
          rw [substImports_untouched h hne, getElem?_set_self _ _ _ hlt]
    · cases hres : imp0.resolved with
      | none =>
        rw [substImports_cons_none hres] at h
        exact substImports_at_import (List.pairwise_cons.mp hpw).2 h imp hmem2 dep hdep hlt
      | some dep0 =>
        rw [substImports_cons_some hres] at h
        cases hchild : child dep0 with
        | fuelOut => rw [hchild] at h; simp [Outcome.bind] at h
        | panicked k => rw [hchild] at h; simp [Outcome.bind] at h
        | error e => rw [hchild] at h; simp [Outcome.bind] at h
        | ok ld =>
          rw [hchild, Outcome.bind_ok] at h
          cases hrem : vec_remove lines imp0.line_number with
          | none => rw [hrem] at h; simp at h
          | some removed =>
            rw [hrem] at h
            have hset := vec_remove_insert_set (contentsOrEmpty ld) hrem
            simp only [hset] at h
            exact substImports_at_import (List.pairwise_cons.mp hpw).2 h imp hmem2 dep hdep
              (by rw [List.length_set]; exact hlt)

/-! ### Bounds on the scanned line numbers -/

theorem collectImports_bounds {fs : Fs} {config : Args} {parent : Path} :
    ∀ {lines : List Str} {idx : Nat} {imps : List ImportStatement},
      collectImports fs config parent lines idx = .ok imps →
      ∀ imp ∈ imps, idx ≤ imp.line_number ∧ imp.line_number < idx + lines.length
  | [], idx, imps, h => by
    simp only [collectImports] at h
    rw [← Outcome.ok.inj h]
    intro imp hmem
    simp at hmem
  | l :: rest, idx, imps, h => by
    simp only [collectImports] at h
    cases hto : to_import fs l idx parent config with
    | fuelOut => rw [hto] at h; simp [Outcome.bind] at h
    | panicked k => rw [hto] at h; simp [Outcome.bind] at h
    | error e => rw [hto] at h; simp [Outcome.bind] at h
    | ok res =>
      rw [hto, Outcome.bind_ok] at h
      cases hrec : collectImports fs config parent rest (idx + 1) with
      | fuelOut => rw [hrec] at h; simp [Outcome.bind] at h
      | panicked k => rw [hrec] at h; simp [Outcome.bind] at h
      | error e => rw [hrec] at h; simp [Outcome.bind] at h
      | ok others =>
        rw [hrec, Outcome.bind_ok] at h
        have hlist := Outcome.ok.inj h
        intro imp hmem
        rw [← hlist] at hmem
        have hrest : imp ∈ others →
            idx ≤ imp.line_number ∧ imp.line_number < idx + (l :: rest).length := by
          intro hmem2
          have := collectImports_bounds hrec imp hmem2
          simp only [List.length_cons]
          omega
        match res with
        | none => exact hrest hmem
        | some i0 =>
          rcases List.mem_cons.mp hmem with heq | hmem2
          · subst heq
            have := (to_import_ok_some hto).1
            simp only [this, List.length_cons]
            omega
          · exact hrest hmem2

theorem importsOf_bounds {fs : Fs} {bf : BashFile} {config : Args}
    {imps : List ImportStatement} (h : importsOf fs bf config = .ok imps) :
    ∀ imp ∈ imps, imp.line_number < (bashLines bf).length := by
  unfold importsOf at h
  cases hpar : pathParent bf.path with
  | none => rw [hpar] at h; simp at h
  | some parent =>
    rw [hpar] at h
    intro imp hmem
    have := (collectImports_bounds h imp hmem).2
    omega

/-- Every loaded dependent is a scanned import with its resolved field
filled in. -/
theorem processImports_ok_shape {child : ImportStatement → Outcome BashFile} :
    ∀ {imps deps : List ImportStatement},
      processImports child imps = .ok deps →
      ∀ d ∈ deps, ∃ imp ∈ imps, ∃ file, child imp = .ok file ∧
        d = { imp with resolved := some file }
  | [], deps, h => by
    simp only [processImports] at h
    rw [← Outcome.ok.inj h]
    intro d hd
    simp at hd
  | imp :: rest, deps, h => by
    simp only [processImports] at h
    cases hchild : child imp with
    | fuelOut => rw [hchild] at h; simp [Outcome.bind] at h
    | panicked k => rw [hchild] at h; simp [Outcome.bind] at h
    | error e => rw [hchild] at h; simp [Outcome.bind] at h
    | ok file =>
      rw [hchild, Outcome.bind_ok] at h
      cases hrec : processImports child rest with
      | fuelOut => rw [hrec] at h; simp [Outcome.bind] at h
      | panicked k => rw [hrec] at h; simp [Outcome.bind] at h
      | error e => rw [hrec] at h; simp [Outcome.bind] at h
      | ok others =>
        rw [hrec, Outcome.bind_ok] at h
        have hlist := Outcome.ok.inj h
        intro d hd
        rw [← hlist] at hd
        rcases List.mem_cons.mp hd with heq | hd2
        · exact ⟨imp, List.mem_cons_self _ _, file, hchild, heq⟩
        · obtain ⟨imp2, hmem2, file2, hch2, hshape⟩ := processImports_ok_shape hrec d hd2
          exact ⟨imp2, List.mem_cons_of_mem _ hmem2, file2, hch2, hshape⟩

/-- A successful dependency load yields a file whose dependents all have
in-range line numbers (the lines are those of the file's own contents,
which loading the dependents does not modify). -/
theorem load_dependents_ok_inbounds :
    ∀ (fuel : Nat) {fs : Fs} {bf out : BashFile} {config : Args},
      load_dependents fuel fs bf config = .ok out →
      ∀ imp ∈ out.dependents, imp.line_number < (bashLines out).length
  | 0, _, _, _, _, h => by simp [load_dependents] at h
  | fuel + 1, fs, bf, out, config, h => by
    simp only [load_dependents] at h
    cases himps : importsOf fs bf config with
    | fuelOut => rw [himps] at h; simp [Outcome.bind] at h
    | panicked k => rw [himps] at h; simp [Outcome.bind] at h
    | error e => rw [himps] at h; simp [Outcome.bind] at h
    | ok imps =>
      rw [himps, Outcome.bind_ok] at h
      cases hproc : processImports _ imps with
      | fuelOut => rw [hproc] at h; simp [Outcome.bind] at h
      | panicked k => rw [hproc] at h; simp [Outcome.bind] at h
      | error e => rw [hproc] at h; simp [Outcome.bind] at h
      | ok deps =>
        rw [hproc, Outcome.bind_ok] at h
        have hout := Outcome.ok.inj h
        subst hout
        intro imp hmem
        rw [BashFile.dependents_setDependents] at hmem
        obtain ⟨imp0, hmem0, file, _, hshape⟩ := processImports_ok_shape hproc imp hmem
        have := importsOf_bounds himps imp0 hmem0
        rw [bashLines_setDependents]
        subst hshape
        exact this

/-! ### Which panics can occur where -/

/-- The panics of the scanner: the `unwrap` on the scanned file's parent
directory and the two `expect`s on the root path. -/
def ScannerPanic (k : PanicKind) : Prop :=
  k = .unwrapNone ∨ k = .expectRootPath ∨ k = .expectRootParent

theorem to_import_panicked {fs : Fs} {input : Str} {n : Nat} {base : Path}
    {config : Args} {k : PanicKind}
    (h : to_import fs input n base config = .panicked k) :
    k = .expectRootPath ∨ k = .expectRootParent := by
  unfold to_import at h
  split at h
  · simp at h
  · unfold to_import_source at h
    split at h
    · split at h
      · simp at h
      · split at h
        · exact Or.inl (Outcome.panicked.inj h).symm
        · split at h
          · exact Or.inr (Outcome.panicked.inj h).symm
          · split at h
            · simp at h
            · simp at h
    · simp at h

theorem collectImports_panicked {fs : Fs} {config : Args} {parent : Path} :
    ∀ {lines : List Str} {idx : Nat} {k : PanicKind},
      collectImports fs config parent lines idx = .panicked k →
      k = .expectRootPath ∨ k = .expectRootParent
  | [], idx, k, h => by simp [collectImports] at h
  | l :: rest, idx, k, h => by
    simp only [collectImports] at h
    cases hto : to_import fs l idx parent config with
    | fuelOut => rw [hto] at h; simp [Outcome.bind] at h
    | panicked k2 =>
      rw [hto] at h
      simp only [Outcome.bind_panicked] at h
      exact (Outcome.panicked.inj h) ▸ to_import_panicked hto
    | error e => rw [hto] at h; simp [Outcome.bind] at h
    | ok res =>
      rw [hto, Outcome.bind_ok] at h
      cases hrec : collectImports fs config parent rest (idx + 1) with
      | fuelOut => rw [hrec] at h; simp [Outcome.bind] at h
      | panicked k2 =>
        rw [hrec] at h
        simp only [Outcome.bind_panicked] at h
        exact (Outcome.panicked.inj h) ▸ collectImports_panicked hrec
      | error e => rw [hrec] at h; simp [Outcome.bind] at h
      | ok others => rw [hrec, Outcome.bind_ok] at h; simp at h

theorem importsOf_panicked {fs : Fs} {bf : BashFile} {config : Args}
    {k : PanicKind} (h : importsOf fs bf config = .panicked k) :
    ScannerPanic k := by
  unfold importsOf at h
  cases hpar : pathParent bf.path with
  | none =>
    rw [hpar] at h
    exact Or.inl (Outcome.panicked.inj h).symm
  | some parent =>
    rw [hpar] at h
    exact Or.inr (collectImports_panicked h)

theorem load_not_panicked {fs : Fs} {bf : BashFile} {k : PanicKind}
    (h : load fs bf = .panicked k) : False := by
  unfold load at h
  cases hfs : fs bf.path <;> rw [hfs] at h <;> simp at h

theorem processImports_panicked {child : ImportStatement → Outcome BashFile} :
    ∀ {imps : List ImportStatement} {k : PanicKind},
      processImports child imps = .panicked k →
      ∃ imp, child imp = .panicked k
  | [], k, h => by simp [processImports] at h
  | imp :: rest, k, h => by
    simp only [processImports] at h
    cases hchild : child imp with
    | fuelOut => rw [hchild] at h; simp [Outcome.bind] at h
    | panicked k2 =>
      rw [hchild] at h
      simp only [Outcome.bind_panicked] at h
      exact ⟨imp, (Outcome.panicked.inj h) ▸ hchild⟩
    | error e => rw [hchild] at h; simp [Outcome.bind] at h
    | ok file =>
      rw [hchild, Outcome.bind_ok] at h
      cases hrec : processImports child rest with
      | fuelOut => rw [hrec] at h; simp [Outcome.bind] at h
      | panicked k2 =>
        rw [hrec] at h
        simp only [Outcome.bind_panicked] at h
        exact (Outcome.panicked.inj h) ▸ processImports_panicked hrec
      | error e => rw [hrec] at h; simp [Outcome.bind] at h
      | ok others => rw [hrec, Outcome.bind_ok] at h; simp at h

/-- Dependency loading can only panic inside the scanner. -/
theorem load_dependents_panicked :
    ∀ (fuel : Nat) {fs : Fs} {bf : BashFile} {config : Args} {k : PanicKind},
      load_dependents fuel fs bf config = .panicked k → ScannerPanic k
  | 0, _, _, _, _, h => by simp [load_dependents] at h
  | fuel + 1, fs, bf, config, k, h => by
    simp only [load_dependents] at h
    cases himps : importsOf fs bf config with
    | fuelOut => rw [himps] at h; simp [Outcome.bind] at h
    | panicked k2 =>
      rw [himps] at h
      simp only [Outcome.bind_panicked] at h
      exact (Outcome.panicked.inj h) ▸ importsOf_panicked himps
    | error e => rw [himps] at h; simp [Outcome.bind] at h
    | ok imps =>
      rw [himps, Outcome.bind_ok] at h
      cases hproc : processImports _ imps with
      | fuelOut => rw [hproc] at h; simp [Outcome.bind] at h
      | panicked k2 =>
        rw [hproc] at h
        simp only [Outcome.bind_panicked] at h
        obtain ⟨imp, hchild⟩ := processImports_panicked hproc
        cases hload : load fs (BashFile.new imp.path) with
        | fuelOut => rw [hload] at hchild; simp [Outcome.bind] at hchild
        | panicked k3 =>
          rw [hload] at hchild
          exact absurd hload (fun hl => load_not_panicked hl)
        | error e => rw [hload] at hchild; simp [Outcome.bind] at hchild
        | ok file =>
          rw [hload, Outcome.bind_ok] at hchild
          split at hchild
          · simp at hchild
          · exact (Outcome.panicked.inj h) ▸ load_dependents_panicked fuel hchild
      | error e => rw [hproc] at h; simp [Outcome.bind] at h
      | ok deps => rw [hproc, Outcome.bind_ok] at h; simp at h

/-- If the per-import child computation panics only inside the scanner,
and all line numbers are in range, then the substitution loop panics
only inside the scanner (never on the remove or insert). -/
theorem substImports_panicked {child : BashFile → Outcome BashFile}
    (hchild : ∀ dep k, child dep = .panicked k → ScannerPanic k) :
    ∀ {imps : List ImportStatement} {lines : List Str} {k : PanicKind},
      (∀ imp ∈ imps, imp.line_number < lines.length) →
      substImports child imps lines = .panicked k → ScannerPanic k
  | [], lines, k, _, h => by simp [substImports] at h
  | imp :: rest, lines, k, hin, h => by
    cases hres : imp.resolved with
    | none =>
      rw [substImports_cons_none hres] at h
      exact substImports_panicked hchild
        (fun x hx => hin x (List.mem_cons_of_mem _ hx)) h
    | some dep =>
      rw [substImports_cons_some hres] at h
      cases hch : child dep with
      | fuelOut => rw [hch] at h; simp [Outcome.bind] at h
      | panicked k2 =>
        rw [hch] at h
        simp only [Outcome.bind_panicked] at h
        exact (Outcome.panicked.inj h) ▸ hchild dep k2 hch
      | error e => rw [hch] at h; simp [Outcome.bind] at h
      | ok ld =>
        rw [hch, Outcome.bind_ok] at h
        obtain ⟨removed, hrem⟩ := vec_remove_of_lt lines imp.line_number
          (hin imp (List.mem_cons_self _ _))
        rw [hrem] at h
        have hset := vec_remove_insert_set (contentsOrEmpty ld) hrem
        simp only [hset] at h
        exact substImports_panicked hchild
          (fun x hx => by rw [List.length_set]; exact hin x (List.mem_cons_of_mem _ hx)) h

/-- Flattening panics only inside the scanner, provided the File
Unit's import line numbers are in range of its own lines. -/
theorem resolve_dependents_panicked :
    ∀ (fuel : Nat) {fs : Fs} {bf : BashFile} {config : Args} {k : PanicKind},
      (∀ imp ∈ bf.dependents, imp.line_number < (bashLines bf).length) →
      resolve_dependents fuel fs bf config = .panicked k → ScannerPanic k
  | 0, _, _, _, _, _, h => by simp [resolve_dependents] at h
  | fuel + 1, fs, bf, config, k, hin, h => by
    simp only [resolve_dependents] at h
    cases hsub : substImports _ bf.dependents (bashLines bf) with
    | fuelOut => rw [hsub] at h; simp [Outcome.bind] at h
    | panicked k2 =>
      rw [hsub] at h
      simp only [Outcome.bind_panicked] at h
      refine (Outcome.panicked.inj h) ▸ substImports_panicked ?_ hin hsub
      intro dep k3 hch
      cases hload : load_dependents fuel fs (dep.setNested (dep.nested + 1)) config with
      | fuelOut => rw [hload] at hch; simp [Outcome.bind] at hch
      | panicked k4 =>
        rw [hload] at hch
        simp only [Outcome.bind_panicked] at hch
        exact (Outcome.panicked.inj hch) ▸ load_dependents_panicked fuel hload
      | error e => rw [hload] at hch; simp [Outcome.bind] at hch
      | ok ld =>
        rw [hload, Outcome.bind_ok] at hch
        exact resolve_dependents_panicked fuel
          (load_dependents_ok_inbounds fuel hload) hch
    | error e => rw [hsub] at h; simp [Outcome.bind] at h
    | ok lines => rw [hsub, Outcome.bind_ok] at h; simp at h

/-! ### Claim C10 -/

/-- C10: when a File Unit's Import Descriptors carry line numbers that
index into its own lines (as those produced by scanning its contents
do), every remove-then-insert step preserves the length of the line
sequence, and flattening never reaches the out-of-bounds panic of the
vector remove or insert. -/
theorem c10_remove_insert_safe (fuel : Nat) (fs : Fs) (bf : BashFile)
    (config : Args)
    (hin : ∀ imp ∈ bf.dependents, imp.line_number < (bashLines bf).length) :
    (∀ k, resolve_dependents fuel fs bf config = .panicked k →
      k ≠ .removeOutOfBounds ∧ k ≠ .insertOutOfBounds) ∧
    (∀ (lines : List Str) (i : Nat) (t : Str), i < lines.length →
      ∃ ys, vec_remove lines i = some ys ∧
        vec_insert ys i t = some (lines.set i t) ∧
        (lines.set i t).length = lines.length) := by
  constructor
  · intro k h
    rcases resolve_dependents_panicked fuel hin h with h1 | h1 | h1 <;>
      subst h1 <;> exact ⟨(by decide), (by decide)⟩
  · intro lines i t hi
    obtain ⟨ys, hy⟩ := vec_remove_of_lt lines i hi
    exact ⟨ys, hy, vec_remove_insert_set t hy, List.length_set _ _ _⟩

/-- C10, witness: the theorem applied to a one-import File Unit
whose import sits at line 0 of its single line. -/
theorem c10_witness :
    (∀ k, resolve_dependents 1 (fun _ => none)
        (BashFile.mk [['d'], ['f', '.', 's', 'h']] (some ['x'])
          [{ line_number := 0, line := ['x'], text := ['x'],
                               path := [['u']], style := .comment, resolved := none }] 0)
        defaultArgs = .panicked k →
      k ≠ .removeOutOfBounds ∧ k ≠ .insertOutOfBounds) ∧
    (∀ (lines : List Str) (i : Nat) (t : Str), i < lines.length →
      ∃ ys, vec_remove lines i = some ys ∧
        vec_insert ys i t = some (lines.set i t) ∧
        (lines.set i t).length = lines.length) := by
  exact c10_remove_insert_safe 1 (fun _ => none) _ defaultArgs (by decide)

/-! ### Claim C5 -/

/-- C5: on a File Unit whose imports have pairwise-distinct in-range line
numbers, successful flattening produces the original line sequence in
which each import's line slot has been replaced, at exactly its original
index, by the flattened text of that import's resolved child (itself
first re-loaded and fully flattened, depth first); all other lines keep
their positions, and the slot count is unchanged. -/
theorem c5_depth_first_substitution (fuel : Nat) (fs : Fs) (bf : BashFile)
    (config : Args) (out : BashFile)
    (h : resolve_dependents (fuel + 1) fs bf config = .ok out)
    (hin : ∀ imp ∈ bf.dependents, imp.line_number < (bashLines bf).length)
    (hpw : List.Pairwise (fun a b => a.line_number ≠ b.line_number) bf.dependents) :
    ∃ L, out = (bf.setContents (some (joinLines L))).setDependents [] ∧
      L.length = (bashLines bf).length ∧
      (∀ i, (∀ imp ∈ bf.dependents, imp.line_number ≠ i) →
        L[i]? = (bashLines bf)[i]?) ∧
      (∀ imp ∈ bf.dependents, ∀ dep, imp.resolved = some dep →
        ∃ flat, ((load_dependents fuel fs (dep.setNested (dep.nested + 1)) config).bind
            fun ld => resolve_dependents fuel fs ld config) = .ok flat ∧
          L[imp.line_number]? = some (contentsOrEmpty flat)) := by
  simp only [resolve_dependents] at h
  cases hsub : substImports
      (fun dep => (load_dependents fuel fs (dep.setNested (dep.nested + 1)) config).bind
        fun ld => resolve_dependents fuel fs ld config)
      bf.dependents (bashLines bf) with
  | fuelOut => rw [hsub] at h; simp [Outcome.bind] at h
  | panicked k => rw [hsub] at h; simp [Outcome.bind] at h
  | error e => rw [hsub] at h; simp [Outcome.bind] at h
  | ok L =>
    rw [hsub, Outcome.bind_ok] at h
    refine ⟨L, (Outcome.ok.inj h).symm, substImports_length hsub,
      fun i hni => substImports_untouched hsub hni, ?_⟩
    intro imp hmem dep hdep
    exact substImports_at_import hpw hsub imp hmem dep hdep (hin imp hmem)

/-- C5, witness: a three-line file whose middle line is an import of a
one-line child; the output keeps lines 0 and 2 and has the child's text
at slot 1. -/
theorem c5_witness :
    ∃ L, (BashFile.mk [['d'], ['f', '.', 's', 'h']]
          (some ['a', '\n', 'u', '\n', 'b']) [] 0) =
        ((BashFile.mk [['d'], ['f', '.', 's', 'h']]
            (some ['a', '\n', 'X', '\n', 'b'])
            [{ line_number := 1, line := ['X'], text := ['.', '/', 'u', '.', 's', 'h'],
                                 path := [['d'], ['u', '.', 's', 'h']], style := .comment,
                                 resolved := some (BashFile.mk [['d'], ['u', '.', 's', 'h']]
                                   (some ['u']) [] 1) }] 0).setContents
          (some (joinLines L))).setDependents [] ∧
      L.length = 3 ∧
      (∀ i, (∀ imp ∈ [({ line_number := 1, line := ['X'],
                         text := ['.', '/', 'u', '.', 's', 'h'],
                         path := [['d'], ['u', '.', 's', 'h']], style := .comment,
                         resolved := some (BashFile.mk [['d'], ['u', '.', 's', 'h']]
                           (some ['u']) [] 1) } : ImportStatement)],
          imp.line_number ≠ i) →
        L[i]? = (rustLines ['a', '\n', 'X', '\n', 'b'])[i]?) := by
  have h := c5_depth_first_substitution 1 (fun _ => none)
    (BashFile.mk [['d'], ['f', '.', 's', 'h']]
      (some ['a', '\n', 'X', '\n', 'b'])
      [{ line_number := 1, line := ['X'], text := ['.', '/', 'u', '.', 's', 'h'],
                           path := [['d'], ['u', '.', 's', 'h']], style := .comment,
                           resolved := some (BashFile.mk [['d'], ['u', '.', 's', 'h']]
                             (some ['u']) [] 1) }] 0)
    defaultArgs
    (BashFile.mk [['d'], ['f', '.', 's', 'h']] (some ['a', '\n', 'u', '\n', 'b']) [] 0)
    (by rfl) (by decide) (by simp)
  obtain ⟨L, hout, hlen, huntouched, _⟩ := h
  exact ⟨L, hout, by rw [hlen]; rfl, fun i hni => huntouched i hni⟩

/-! ### Claims C6 and C7 -/

/-- A successful flattening leaves every line slot whose index is
no import's line number exactly as in the input lines. -/
theorem resolve_dependents_untouched (fuel : Nat) (fs : Fs) (bf : BashFile)
    (config : Args) (out : BashFile) (i : Nat)
    (h : resolve_dependents fuel fs bf config = .ok out)
    (hni : ∀ imp ∈ bf.dependents, imp.line_number ≠ i) :
    ∃ L, out.contents = some (joinLines L) ∧ L[i]? = (bashLines bf)[i]? := by
  cases fuel with
  | zero => simp [resolve_dependents] at h
  | succ fuel =>
    simp only [resolve_dependents] at h
    cases hsub : substImports
        (fun dep => (load_dependents fuel fs (dep.setNested (dep.nested + 1)) config).bind
          fun ld => resolve_dependents fuel fs ld config)
        bf.dependents (bashLines bf) with
    | fuelOut => rw [hsub] at h; simp [Outcome.bind] at h
    | panicked k => rw [hsub] at h; simp [Outcome.bind] at h
    | error e => rw [hsub] at h; simp [Outcome.bind] at h
    | ok L =>
      rw [hsub, Outcome.bind_ok] at h
      refine ⟨L, ?_, substImports_untouched hsub hni⟩
      rw [← Outcome.ok.inj h]
      simp

/-- C6: a line that starts with an enabled directive marker but whose
joined candidate path fails the existence-and-extension check yields
no import statement, and (third part) a line slot with no import was
produced survives flattening unchanged. -/
theorem c6_invalid_target_passthrough :
    (∀ (fs : Fs) (input : Str) (n : Nat) (base : Path) (config : Args) (x : Str),
      config.replace_comment = true →
      dropPre commentMarker input = some x →
      to_valid_bash_file fs base x = none →
      to_import fs input n base config = .ok none) ∧
    (∀ (fs : Fs) (input : Str) (n : Nat) (base : Path) (config : Args)
      (y : Str) (rp pp : Path),
      config.replace_source = true →
      dropPre sourceMarker input = some y →
      config.root_path = some rp → pathParent rp = some pp →
      to_valid_bash_file fs pp y = none →
      to_import fs input n base config = .ok none) ∧
    (∀ (fuel : Nat) (fs : Fs) (bf : BashFile) (config : Args) (out : BashFile) (i : Nat),
      resolve_dependents fuel fs bf config = .ok out →
      (∀ imp ∈ bf.dependents, imp.line_number ≠ i) →
      ∃ L, out.contents = some (joinLines L) ∧ L[i]? = (bashLines bf)[i]?) := by
  refine ⟨?_, ?_, fun fuel fs bf config out i h hni =>
    resolve_dependents_untouched fuel fs bf config out i h hni⟩
  · intro fs input n base config x hcc hpre hval
    unfold to_import
    have hcand : (if config.replace_comment = true then
        match dropPre commentMarker input with
        | some x => to_valid_bash_file fs base x
        | none => none
      else none) = none := by simp [hcc, hpre, hval]
    rw [hcand]
    show to_import_source fs input n config = .ok none
    unfold to_import_source
    rw [source_none_of_comment hpre]
    split <;> rfl
  · intro fs input n base config y rp pp hcs hpre hroot hpar hval
    unfold to_import
    have hcand : (if config.replace_comment = true then
        match dropPre commentMarker input with
        | some x => to_valid_bash_file fs base x
        | none => none
      else none) = none := by simp [comment_none_of_source hpre]
    rw [hcand]
    show to_import_source fs input n config = .ok none
    unfold to_import_source
    simp [hcs, hpre, hroot, hpar, hval]

/-- C6, witness: with comment style enabled, a `# import ` line whose
target does not exist on the (empty) filesystem yields no import. -/
theorem c6_witness :
    to_import (fun _ => none)
      (commentMarker ++ ['u', '.', 's', 'h']) 0 [['d']] defaultArgs = .ok none := by
  exact c6_invalid_target_passthrough.1 (fun _ => none)
    (commentMarker ++ ['u', '.', 's', 'h']) 0 [['d']] defaultArgs
    ['u', '.', 's', 'h'] rfl (by decide) (by decide)

/-- C7: a line using a disabled style's marker yields no import
statement regardless of the other configuration fields, and (third
part) a line slot for which no import was produced survives flattening
unchanged. -/
theorem c7_style_isolation :
    (∀ (fs : Fs) (input : Str) (n : Nat) (base : Path) (config : Args) (x : Str),
      config.replace_comment = false →
      dropPre commentMarker input = some x →
      to_import fs input n base config = .ok none) ∧
    (∀ (fs : Fs) (input : Str) (n : Nat) (base : Path) (config : Args) (y : Str),
      config.replace_source = false →
      dropPre sourceMarker input = some y →
      to_import fs input n base config = .ok none) ∧
    (∀ (fuel : Nat) (fs : Fs) (bf : BashFile) (config : Args) (out : BashFile) (i : Nat),
      resolve_dependents fuel fs bf config = .ok out →
      (∀ imp ∈ bf.dependents, imp.line_number ≠ i) →
      ∃ L, out.contents = some (joinLines L) ∧ L[i]? = (bashLines bf)[i]?) := by
  refine ⟨?_, ?_, fun fuel fs bf config out i h hni =>
    resolve_dependents_untouched fuel fs bf config out i h hni⟩
  · intro fs input n base config x hcc hpre
    unfold to_import
    have hcand : (if config.replace_comment = true then
        match dropPre commentMarker input with
        | some x => to_valid_bash_file fs base x
        | none => none
      else none) = none := by simp [hcc]
    rw [hcand]
    show to_import_source fs input n config = .ok none
    unfold to_import_source
    rw [source_none_of_comment hpre]
    split <;> rfl
  · intro fs input n base config y hcs hpre
    unfold to_import
    have hcand : (if config.replace_comment = true then
        match dropPre commentMarker input with
        | some x => to_valid_bash_file fs base x
        | none => none
      else none) = none := by simp [comment_none_of_source hpre]
    rw [hcand]
    show to_import_source fs input n config = .ok none
    unfold to_import_source
    simp [hcs]

/-- C7, witness: with comment style disabled, a `# import ` line whose
target does exist is still left alone; with source style disabled, a
`source ` line is left alone. -/
theorem c7_witness :
    to_import (fun _ => some ['x'])
      (commentMarker ++ ['u', '.', 's', 'h']) 0 [['d']]
      { root_path := none, config := none,
        replace_source := true, replace_comment := false } = .ok none ∧
    to_import (fun _ => some ['x'])
      (sourceMarker ++ ['u', '.', 's', 'h']) 0 [['d']] defaultArgs = .ok none := by
  constructor
  · exact c7_style_isolation.1 (fun _ => some ['x'])
      (commentMarker ++ ['u', '.', 's', 'h']) 0 [['d']]
      { root_path := none, config := none,
        replace_source := true, replace_comment := false }
      ['u', '.', 's', 'h'] rfl (by decide)
  · exact c7_style_isolation.2.1 (fun _ => some ['x'])
      (sourceMarker ++ ['u', '.', 's', 'h']) 0 [['d']] defaultArgs
      ['u', '.', 's', 'h'] rfl (by decide)

/-! ### Claim C8 -/

/-- C8: with a configured root path, the run's result is exactly the
result of `resolve`: an error anywhere in the pipeline (load, dependency
loading at any depth, or flattening) propagates unchanged as the single
terminal error of `inner_main`, and an output string is produced exactly
when the whole resolution succeeded, in which case it is the complete
flattened contents. -/
theorem c8_error_propagation (fuel : Nat) (fs : Fs) (args : Args) (p : Path)
    (hroot : args.root_path = some p) :
    (∀ e, resolve fuel fs p args = .error e → inner_main fuel fs args = .error e) ∧
    (∀ bf, resolve fuel fs p args = .ok bf →
      inner_main fuel fs args = .ok (displayBashFile bf)) ∧
    (∀ s, inner_main fuel fs args = .ok s →
      ∃ bf, resolve fuel fs p args = .ok bf ∧ s = displayBashFile bf) ∧
    (∀ f1 e, load fs (BashFile.new p) = .ok f1 →
      load_dependents fuel fs f1 args = .error e →
      resolve fuel fs p args = .error e) ∧
    (∀ f1 f2 e, load fs (BashFile.new p) = .ok f1 →
      load_dependents fuel fs f1 args = .ok f2 →
      resolve_dependents fuel fs f2 args = .error e →
      resolve fuel fs p args = .error e) := by
  refine ⟨?_, ?_, ?_, ?_, ?_⟩
  · intro e h
    simp only [inner_main, hroot]
    rw [h]
    rfl
  · intro bf h
    simp only [inner_main, hroot]
    rw [h]
    rfl
  · intro s h
    simp only [inner_main, hroot] at h
    cases hres : resolve fuel fs p args with
    | fuelOut => rw [hres] at h; simp [Outcome.bind] at h
    | panicked k => rw [hres] at h; simp [Outcome.bind] at h
    | error e => rw [hres] at h; simp [Outcome.bind] at h
    | ok bf =>
      rw [hres, Outcome.bind_ok] at h
      exact ⟨bf, rfl, (Outcome.ok.inj h).symm⟩
  · intro f1 e h1 h2
    unfold resolve
    rw [h1, Outcome.bind_ok, h2]
    rfl
  · intro f1 f2 e h1 h2 h3
    unfold resolve
    rw [h1, Outcome.bind_ok, h2, Outcome.bind_ok, h3]

/-- C8, witness: with an empty filesystem the root load fails, and this
single I/O error is the run's entire result. -/
theorem c8_witness :
    inner_main 1 (fun _ => none)
      { root_path := some [['r', '.', 's', 'h']], config := none,
        replace_source := false, replace_comment := true } = .error .io := by
  exact (c8_error_propagation 1 (fun _ => none)
    { root_path := some [['r', '.', 's', 'h']], config := none,
      replace_source := false, replace_comment := true }
    [['r', '.', 's', 'h']] rfl).1 .io rfl

/-! ### A family of linear import chains, used to settle claim C2

`chainFs N` is the filesystem holding files `a.sh`, `aa.sh`, ...,
`a^(N+1).sh` in the root directory; file `k` (named by `k+1` letters
of `a`) imports file `k+1` via a comment directive, and file `N` has
contents `end`. This is a non-circular inclusion chain with `N` nesting
levels below the root. -/

/-- Name of the k-th chain file: `k+1` letters `a` followed by `.sh`. -/
def fname (k : Nat) : Str := List.replicate (k + 1) 'a' ++ ['.', 's', 'h']

/-- The directive line importing the k-th chain file. -/
def lineImport (k : Nat) : Str := commentMarker ++ fname k

/-- Contents of the terminal chain file. -/
def endStr : Str := ['e', 'n', 'd']

/-- Counts the leading `a` letters of a string and returns the rest. -/
def deA : Str → Nat × Str
  | 'a' :: rest => ((deA rest).1 + 1, (deA rest).2)
  | s => (0, s)

/-- Recovers the index of a chain file from its name. -/
def fileIdx (c : Str) : Option Nat :=
  match deA c with
  | (k + 1, ['.', 's', 'h']) => some k
  | _ => none

/-- Contents of the k-th chain file. -/
def chainContents (N k : Nat) : Str :=
  if k < N then lineImport (k + 1) else endStr

/-- The chain filesystem: file `k` exists for `k ≤ N`. -/
def chainFs (N : Nat) : Fs := fun p =>
  match p with
  | [c] =>
    match fileIdx c with
    | some k =>
      if k < N then some (lineImport (k + 1))
      else if k = N then some endStr
      else none
    | none => none
  | _ => none

/-- The import statement produced by scanning a chain directive line. -/
def chainImp (j idx : Nat) : ImportStatement :=
  { line_number := idx, line := lineImport j, text := fname j,
    path := [fname j], style := .comment, resolved := none }

/-- The fully loaded dependency tree of chain file `k = N - m` at
nesting level `n` (`m` is the remaining chain length). -/
def chainTree (N : Nat) : Nat → Nat → Nat → BashFile
  | 0, k, n => BashFile.mk [fname k] (some (chainContents N k)) [] n
  | m + 1, k, n =>
    BashFile.mk [fname k] (some (chainContents N k))
      [{ line_number := 0, line := lineImport (k + 1), text := fname (k + 1),
         path := [fname (k + 1)], style := .comment,
         resolved := some (chainTree N m (k + 1) (n + 1)) }] n

/-- The single loaded dependent of chain file `k` (whose subtree has
remaining length `m`) when file `k` sits at nesting level `n`. -/
def chainDep (N m k n : Nat) : ImportStatement :=
  { line_number := 0, line := lineImport (k + 1), text := fname (k + 1),
    path := [fname (k + 1)], style := .comment,
    resolved := some (chainTree N m (k + 1) (n + 1)) }

theorem chainTree_succ (N m k n : Nat) :
    chainTree N (m + 1) k n =
      BashFile.mk [fname k] (some (chainContents N k)) [chainDep N m k n] n := rfl

/-- Result shape of `load_dependents` on a chain file. -/
def chainLoadResult (N m k n : Nat) (bf : BashFile) : Outcome BashFile :=
  match m with
  | 0 => .ok (bf.setDependents [])
  | m' + 1 =>
    if n + (m' + 1) ≤ 512 then .ok (bf.setDependents [chainDep N m' k n])
    else .error .circular

/-! #### String facts about the chain names -/

theorem dropPre_append : ∀ (p s : Str), dropPre p (p ++ s) = some s
  | [], s => rfl
  | c :: p, s => by simp [dropPre, dropPre_append p s]

theorem splitChar_single {sep : Char} : ∀ {s : Str}, sep ∉ s → splitChar sep s = [s]
  | [], _ => rfl
  | c :: rest, h => by
    have hc : c ≠ sep := fun e => h (e ▸ List.mem_cons_self _ _)
    have hrest : sep ∉ rest := fun e => h (List.mem_cons_of_mem _ e)
    simp only [splitChar, if_neg hc, splitChar_single hrest]

theorem splitChar_sep_append {sep : Char} :
    ∀ {s t : Str}, sep ∉ s → sep ∉ t → splitChar sep (s ++ sep :: t) = [s, t]
  | [], t, _, ht => by simp [splitChar, splitChar_single ht]
  | c :: s, t, hs, ht => by
    have hc : c ≠ sep := fun e => hs (e ▸ List.mem_cons_self _ _)
    have hs2 : sep ∉ s := fun e => hs (List.mem_cons_of_mem _ e)
    rw [List.cons_append]
    simp only [splitChar, if_neg hc]
    rw [splitChar_sep_append hs2 ht]

theorem getLast?_append_cons : ∀ (s : Str) (c : Char) (t : Str),
    (s ++ c :: t).getLast? = (c :: t).getLast?
  | [], _, _ => rfl
  | x :: s, c, t => by
    rw [List.cons_append]
    cases hs : s ++ c :: t with
    | nil => simp at hs
    | cons y l =>
      have hrec := getLast?_append_cons s c t
      rw [hs] at hrec
      rw [List.getLast?_cons_cons]
      exact hrec

theorem mem_fname {c : Char} {k : Nat} (h : c ∈ fname k) :
    c = 'a' ∨ c = '.' ∨ c = 's' ∨ c = 'h' := by
  unfold fname at h
  rcases List.mem_append.mp h with h2 | h2
  · exact Or.inl (List.eq_of_mem_replicate h2)
  · simp at h2
    tauto

theorem slash_not_mem_fname (k : Nat) : '/' ∉ fname k := by
  intro h
  rcases mem_fname h with h2 | h2 | h2 | h2 <;> simp at h2

theorem nl_not_mem_fname (k : Nat) : '\n' ∉ fname k := by
  intro h
  rcases mem_fname h with h2 | h2 | h2 | h2 <;> simp at h2

theorem nl_not_mem_lineImport (k : Nat) : '\n' ∉ lineImport k := by
  intro h
  unfold lineImport at h
  rcases List.mem_append.mp h with h2 | h2
  · revert h2; decide
  · exact nl_not_mem_fname k h2

theorem getLast?_fname (k : Nat) : (fname k).getLast? = some 'h' := by
  unfold fname
  rw [getLast?_append_cons]
  rfl

theorem getLast?_lineImport (k : Nat) : (lineImport k).getLast? = some 'h' := by
  unfold lineImport fname
  rw [← List.append_assoc, getLast?_append_cons]
  rfl

theorem deA_replicate : ∀ (m : Nat), deA (List.replicate m 'a' ++ ['.', 's', 'h']) =
    (m, ['.', 's', 'h'])
  | 0 => rfl
  | m + 1 => by
    rw [List.replicate_succ, List.cons_append]
    simp [deA, deA_replicate m]

theorem fileIdx_fname (k : Nat) : fileIdx (fname k) = some k := by
  unfold fileIdx fname
  rw [deA_replicate]
  rfl

theorem pathPush_fname (k : Nat) : pathPush [] (fname k) = [fname k] := by
  unfold pathPush
  rw [splitChar_single (slash_not_mem_fname k)]
  rfl

theorem pathExtension_fname (k : Nat) : pathExtension [fname k] = some shExt := by
  unfold pathExtension
  simp only [List.getLast?_singleton]
  unfold componentExtension
  have hdot : ('.' : Char) ∉ List.replicate (k + 1) 'a' := by
    intro h
    have := List.eq_of_mem_replicate h
    simp at this
  have hsh : ('.' : Char) ∉ (['s', 'h'] : Str) := by decide
  have hsplit : splitChar '.' (fname k) = [List.replicate (k + 1) 'a', ['s', 'h']] := by
    unfold fname
    exact splitChar_sep_append hdot hsh
  rw [hsplit, List.replicate_succ]
  rfl

theorem chainFs_fname (N j : Nat) :
    chainFs N [fname j] =
      (if j < N then some (lineImport (j + 1))
       else if j = N then some endStr else none) := by
  simp only [chainFs, fileIdx_fname]

theorem rustLines_single {s : Str} (hnl : '\n' ∉ s) (hne : s ≠ []) :
    rustLines s = [s] := by
  unfold rustLines
  rw [splitChar_single hnl]
  simp only [rustLinesAux]
  rw [if_neg hne]

theorem rustLines_lineImport (k : Nat) : rustLines (lineImport k) = [lineImport k] := by
  refine rustLines_single (nl_not_mem_lineImport k) ?_
  unfold lineImport commentMarker
  simp

/-- Scanning a chain directive line yields exactly the chain import. -/
theorem chain_to_import (N j idx : Nat) (hj : j ≤ N) :
    to_import (chainFs N) (lineImport j) idx [] defaultArgs =
      .ok (some (chainImp j idx)) := by
  unfold to_import
  have hpre : dropPre commentMarker (lineImport j) = some (fname j) := by
    unfold lineImport
    exact dropPre_append _ _
  have hval : to_valid_bash_file (chainFs N) [] (fname j) = some (fname j, [fname j]) := by
    unfold to_valid_bash_file
    rw [pathPush_fname]
    rw [if_pos ?hc]
    case hc =>
      constructor
      · rw [chainFs_fname]
        rcases Nat.lt_or_ge j N with h | h
        · simp [h]
        · have : j = N := le_antisymm hj h
          simp [this]
      · exact pathExtension_fname j
  simp only [defaultArgs, hpre, hval, if_true]
  rfl

theorem chainFs_fname_le (N j : Nat) (hj : j ≤ N) :
    chainFs N [fname j] = some (chainContents N j) := by
  rw [chainFs_fname]
  unfold chainContents
  rcases Nat.lt_or_ge j N with h | h
  · rw [if_pos h, if_pos h]
  · have he : j = N := le_antisymm hj h
    subst he
    simp

theorem chain_load_file (N j : Nat) (hj : j ≤ N) :
    load (chainFs N) (BashFile.new [fname j]) =
      .ok (BashFile.mk [fname j] (some (chainContents N j)) [] 0) := by
  unfold load BashFile.new
  simp only [BashFile.path_mk, chainFs_fname_le N j hj]
  rfl

theorem chain_importsOf (N k : Nat) (hk : k < N) (bf : BashFile)
    (hpath : bf.path = [fname k])
    (hcont : bf.contents = some (lineImport (k + 1))) :
    importsOf (chainFs N) bf defaultArgs = .ok [chainImp (k + 1) 0] := by
  unfold importsOf
  rw [hpath]
  show collectImports (chainFs N) defaultArgs [] (bashLines bf) 0 =
    .ok [chainImp (k + 1) 0]
  have hlines : bashLines bf = [lineImport (k + 1)] := by
    unfold bashLines
    rw [hcont]
    exact rustLines_lineImport _
  rw [hlines]
  simp only [collectImports, chain_to_import N (k + 1) 0 (by omega),
    Outcome.bind_ok]

theorem chain_importsOf_leaf (N : Nat) (bf : BashFile)
    (hpath : bf.path = [fname N]) (hcont : bf.contents = some endStr) :
    importsOf (chainFs N) bf defaultArgs = .ok [] := by
  unfold importsOf
  rw [hpath]
  show collectImports (chainFs N) defaultArgs [] (bashLines bf) 0 = .ok []
  have hlines : bashLines bf = [endStr] := by
    unfold bashLines
    rw [hcont]
    rfl
  rw [hlines]
  have hto : to_import (chainFs N) endStr 0 [] defaultArgs = .ok none := rfl
  simp only [collectImports, hto, Outcome.bind_ok]

/-- Closed form of `load_dependents` on the chain: file `k` at nesting
level `n` with remaining chain length `m` loads its whole subtree when
no level of the subtree would exceed the cutoff (`n + m ≤ 512`), and
aborts with the circular error otherwise. -/
theorem chain_load (N : Nat) : ∀ (m k n fuel : Nat) (bf : BashFile),
    k + m = N → bf.path = [fname k] → bf.contents = some (chainContents N k) →
    bf.nested = n → m + 1 ≤ fuel →
    load_dependents fuel (chainFs N) bf defaultArgs = chainLoadResult N m k n bf
  | 0, k, n, fuel, bf, hkm, hpath, hcont, hnested, hfuel => by
    cases fuel with
    | zero => omega
    | succ f =>
      have hk : k = N := by omega
      have hcontents : bf.contents = some endStr := by
        rw [hcont]
        unfold chainContents
        rw [if_neg (by omega)]
      have hpathN : bf.path = [fname N] := by rw [hpath, hk]
      simp only [load_dependents, chain_importsOf_leaf N bf hpathN hcontents,
        Outcome.bind_ok, processImports]
      rfl
  | m' + 1, k, n, fuel, bf, hkm, hpath, hcont, hnested, hfuel => by
    cases fuel with
    | zero => omega
    | succ f =>
      have hk : k < N := by omega
      have hcontents : bf.contents = some (lineImport (k + 1)) := by
        rw [hcont]
        unfold chainContents
        rw [if_pos hk]
      simp only [load_dependents, chain_importsOf N k hk bf hpath hcontents,
        Outcome.bind_ok, processImports]
      have hnewpath : BashFile.new (chainImp (k + 1) 0).path =
          BashFile.new [fname (k + 1)] := rfl
      simp only [hnewpath, chain_load_file N (k + 1) (by omega),
        Outcome.bind_ok, hnested]
      by_cases hcheck : n + 1 > CIRCULAR_CUT_OFF
      · rw [if_pos hcheck]
        simp only [Outcome.bind_error, chainLoadResult]
        rw [if_neg (by unfold CIRCULAR_CUT_OFF at hcheck; omega)]
      · rw [if_neg hcheck]
        have hrec := chain_load N m' (k + 1) (n + 1) f
          ((BashFile.mk [fname (k + 1)] (some (chainContents N (k + 1))) [] 0).setNested (n + 1))
          (by omega) (by simp) (by simp) (by simp) (by omega)
        rw [hrec]
        unfold CIRCULAR_CUT_OFF at hcheck
        cases m' with
        | zero =>
          simp only [chainLoadResult, Outcome.bind_ok]
          rw [if_pos (show n + (0 + 1) ≤ 512 by omega)]
          rfl
        | succ m'' =>
          simp only [chainLoadResult]
          by_cases hcond : n + 1 + (m'' + 1) ≤ 512
          · rw [if_pos hcond]
            simp only [Outcome.bind_ok]
            rw [if_pos (show n + (m'' + 1 + 1) ≤ 512 by omega)]
            rfl
          · rw [if_neg hcond]
            simp only [Outcome.bind_error]
            rw [if_neg (show ¬ n + (m'' + 1 + 1) ≤ 512 by omega)]

@[simp] theorem chainTree_path (N m k n : Nat) : (chainTree N m k n).path = [fname k] := by
  cases m <;> rfl

@[simp] theorem chainTree_contents (N m k n : Nat) :
    (chainTree N m k n).contents = some (chainContents N k) := by
  cases m <;> rfl

@[simp] theorem chainTree_nested (N m k n : Nat) : (chainTree N m k n).nested = n := by
  cases m <;> rfl

theorem chain_bashLines (N k : Nat) (hk : k < N) (deps : List ImportStatement) (n : Nat) :
    bashLines (BashFile.mk [fname k] (some (chainContents N k)) deps n) =
      [lineImport (k + 1)] := by
  simp only [bashLines, BashFile.contents_mk]
  unfold chainContents
  rw [if_pos hk]
  exact rustLines_lineImport _

/-- Closed form of `resolve_dependents` on a loaded chain tree: the
flattened contents are always just `end`, and the run succeeds exactly
when the doubled nesting counters of the re-loading pass stay within the
cutoff (`n + 2m ≤ 513`, always true for `m ≤ 1`). -/
theorem chain_resolve (N : Nat) : ∀ (m k n fuel : Nat), k + m = N → m + 1 ≤ fuel →
    resolve_dependents fuel (chainFs N) (chainTree N m k n) defaultArgs =
      (if m ≤ 1 ∨ n + 2 * m ≤ 513 then
        .ok (BashFile.mk [fname k] (some endStr) [] n)
       else .error .circular)
  | 0, k, n, fuel, hkm, hfuel => by
    cases fuel with
    | zero => omega
    | succ f =>
      have hcont : chainContents N k = endStr := by
        unfold chainContents
        rw [if_neg (by omega)]
      have hlines : bashLines (chainTree N 0 k n) = [endStr] := by
        simp only [chainTree, bashLines, BashFile.contents_mk, hcont]
        rfl
      simp only [resolve_dependents, chainTree, BashFile.dependents_mk, substImports,
        Outcome.bind_ok]
      rw [hlines] at *
      simp only [chainTree] at *
      rw [if_pos (Or.inl (by omega)), hcont]
      rfl
  | m' + 1, k, n, fuel, hkm, hfuel => by
    cases fuel with
    | zero => omega
    | succ f =>
      have hk : k < N := by omega
      simp only [resolve_dependents, chainTree_succ, BashFile.dependents_mk]
      rw [chain_bashLines N k hk]
      simp only [substImports_cons_some
        (show (chainDep N m' k n).resolved = some (chainTree N m' (k + 1) (n + 1)) from rfl)]
      simp only [chainTree_nested]
      have hload := chain_load N m' (k + 1) (n + 1 + 1) f
        ((chainTree N m' (k + 1) (n + 1)).setNested (n + 1 + 1))
        (by omega) (by simp) (by simp) (by simp) (by omega)
      rw [hload]
      cases m' with
      | zero =>
        simp only [chainLoadResult, Outcome.bind_ok]
        rw [show ((chainTree N 0 (k + 1) (n + 1)).setNested (n + 1 + 1)).setDependents [] =
          chainTree N 0 (k + 1) (n + 1 + 1) from rfl]
        rw [chain_resolve N 0 (k + 1) (n + 1 + 1) f (by omega) (by omega)]
        rw [if_pos (Or.inl (by omega)), if_pos (Or.inl (by omega))]
        rfl
      | succ m'' =>
        simp only [chainLoadResult]
        by_cases hload2 : n + 1 + 1 + (m'' + 1) ≤ 512
        · rw [if_pos hload2]
          simp only [Outcome.bind_ok]
          rw [show ((chainTree N (m'' + 1) (k + 1) (n + 1)).setNested (n + 1 + 1)).setDependents
            [chainDep N m'' (k + 1) (n + 1 + 1)] = chainTree N (m'' + 1) (k + 1) (n + 1 + 1) from rfl]
          rw [chain_resolve N (m'' + 1) (k + 1) (n + 1 + 1) f (by omega) (by omega)]
          by_cases hgoal : n + 2 * (m'' + 1 + 1) ≤ 513
          · rw [if_pos (by omega : m'' + 1 ≤ 1 ∨ n + 1 + 1 + 2 * (m'' + 1) ≤ 513)]
            rw [if_pos (Or.inr hgoal)]
            rfl
          · rw [if_neg (by omega : ¬(m'' + 1 ≤ 1 ∨ n + 1 + 1 + 2 * (m'' + 1) ≤ 513))]
            simp only [Outcome.bind_error]
            rw [if_neg (by omega : ¬(m'' + 1 + 1 ≤ 1 ∨ n + 2 * (m'' + 1 + 1) ≤ 513))]
        · rw [if_neg hload2]
          simp only [Outcome.bind_error]
          rw [if_neg (by omega : ¬(m'' + 1 + 1 ≤ 1 ∨ n + 2 * (m'' + 1 + 1) ≤ 513))]

/-- A full run on the chain: the non-circular chain of depth `N` is
accepted exactly when `N ≤ 256`. -/
theorem chain_run (N fuel : Nat) (hfuel : N + 2 ≤ fuel) :
    resolve fuel (chainFs N) [fname 0] defaultArgs =
      (if N ≤ 256 then .ok (BashFile.mk [fname 0] (some endStr) [] 0)
       else .error .circular) := by
  unfold resolve
  rw [chain_load_file N 0 (by omega), Outcome.bind_ok]
  have h1 := chain_load N N 0 0 fuel
    (BashFile.mk [fname 0] (some (chainContents N 0)) [] 0)
    (by omega) (by simp) (by simp) (by simp) (by omega)
  rw [h1]
  cases N with
  | zero =>
    simp only [chainLoadResult, Outcome.bind_ok]
    rw [show (BashFile.mk [fname 0] (some (chainContents 0 0)) [] 0).setDependents [] =
      chainTree 0 0 0 0 from rfl]
    rw [chain_resolve 0 0 0 0 fuel (by omega) (by omega)]
    rw [if_pos (Or.inl (by omega)), if_pos (by omega)]
  | succ N' =>
    simp only [chainLoadResult]
    by_cases hN : 0 + (N' + 1) ≤ 512
    · rw [if_pos hN]
      simp only [Outcome.bind_ok]
      rw [show (BashFile.mk [fname 0] (some (chainContents (N' + 1) 0)) [] 0).setDependents
        [chainDep (N' + 1) N' 0 0] = chainTree (N' + 1) (N' + 1) 0 0 from rfl]
      rw [chain_resolve (N' + 1) (N' + 1) 0 0 fuel (by omega) (by omega)]
      by_cases hc : N' + 1 ≤ 256
      · rw [if_pos (by omega : N' + 1 ≤ 1 ∨ 0 + 2 * (N' + 1) ≤ 513), if_pos hc]
      · rw [if_neg (by omega : ¬(N' + 1 ≤ 1 ∨ 0 + 2 * (N' + 1) ≤ 513)), if_neg hc]
    · rw [if_neg hN]
      simp only [Outcome.bind_error]
      rw [if_neg (by omega)]

/-! ### A self-importing file, for the circularity half of claim C2 -/

/-- Name of the self-importing file. -/
def selfName : Str := ['s', 'e', 'l', 'f', '.', 's', 'h']

/-- Its single line: a comment-style import of itself. -/
def selfLine : Str := commentMarker ++ selfName

/-- A filesystem holding only the self-importing file. -/
def selfFs : Fs := fun p => if p = [selfName] then some selfLine else none

/-- The configuration of the self-import run. -/
def argsSelf : Args :=
  { root_path := some [selfName], config := none,
    replace_source := false, replace_comment := true }

/-- The import statement scanned from the self-import line. -/
def selfImp (idx : Nat) : ImportStatement :=
  { line_number := idx, line := selfLine, text := selfName,
    path := [selfName], style := .comment, resolved := none }

theorem self_importsOf (bf : BashFile) (hpath : bf.path = [selfName])
    (hcont : bf.contents = some selfLine) :
    importsOf selfFs bf argsSelf = .ok [selfImp 0] := by
  unfold importsOf
  rw [hpath]
  show collectImports selfFs argsSelf [] (bashLines bf) 0 = .ok [selfImp 0]
  have hlines : bashLines bf = [selfLine] := by
    unfold bashLines
    rw [hcont]
    rfl
  rw [hlines]
  have hto : to_import selfFs selfLine 0 [] argsSelf = .ok (some (selfImp 0)) := rfl
  simp only [collectImports, hto, Outcome.bind_ok]

/-- Loading the dependents of the self-importing file descends one level
per step until the depth counter would exceed the cutoff, then aborts
with the circular error. -/
theorem self_load : ∀ (fuel n : Nat) (bf : BashFile),
    bf.path = [selfName] → bf.contents = some selfLine → bf.nested = n →
    n ≤ 512 → 513 ≤ n + fuel →
    load_dependents fuel selfFs bf argsSelf = .error .circular
  | 0, n, _, _, _, _, hle, hfuel => by omega
  | fuel + 1, n, bf, hpath, hcont, hnested, hle, hfuel => by
    simp only [load_dependents, self_importsOf bf hpath hcont, Outcome.bind_ok,
      processImports]
    have hl : load selfFs (BashFile.new (selfImp 0).path) =
        .ok (BashFile.mk [selfName] (some selfLine) [] 0) := rfl
    simp only [hl, Outcome.bind_ok, hnested]
    by_cases hch : n + 1 > CIRCULAR_CUT_OFF
    · rw [if_pos hch]
      simp only [Outcome.bind_error]
    · rw [if_neg hch]
      unfold CIRCULAR_CUT_OFF at hch
      rw [self_load fuel (n + 1)
        ((BashFile.mk [selfName] (some selfLine) [] 0).setNested (n + 1))
        (by simp) (by simp) (by simp) (by omega) (by omega)]
      simp only [Outcome.bind_error]

theorem self_run (fuel : Nat) (hfuel : 513 ≤ fuel) :
    resolve fuel selfFs [selfName] argsSelf = .error .circular := by
  unfold resolve
  rw [show load selfFs (BashFile.new [selfName]) =
    .ok (BashFile.mk [selfName] (some selfLine) [] 0) from rfl, Outcome.bind_ok]
  rw [self_load fuel 0 (BashFile.mk [selfName] (some selfLine) [] 0)
    rfl rfl rfl (by omega) (by omega)]
  rfl

/-! ### Claim C2 -/

/-- C2, counterexample: the linear (non-circular) chain of depth 257
passes the 512-bound of the dependency-loading phase, yet the full run
rejects it with the circular-dependency error. -/
theorem c2_depth_counterexample :
    load_dependents 600 (chainFs 257)
        (BashFile.mk [fname 0] (some (chainContents 257 0)) [] 0) defaultArgs =
      .ok (chainTree 257 257 0 0) ∧
    resolve 600 (chainFs 257) [fname 0] defaultArgs = .error .circular ∧
    (257 : Nat) ≤ 512 := by
  refine ⟨?_, ?_, by omega⟩
  · have h := chain_load 257 257 0 0 600
      (BashFile.mk [fname 0] (some (chainContents 257 0)) [] 0)
      (by omega) (by simp) (by simp) (by simp) (by omega)
    rw [h]
    simp only [chainLoadResult]
    rw [if_pos (by omega)]
    rfl
  · have h := chain_run 257 600 (by omega)
    rw [if_neg (by omega)] at h
    exact h

/-- C2, amended: `inner_load_dependents` aborts with the circular error
exactly when the assigned depth counter exceeds 512, so the initial
loading phase (one increment per nesting level) accepts chains up to
depth 512 and a self-importing file is rejected with the circular error
and produces no output. During flattening, however, each resolved
child's counter is incremented once more before its dependents are
re-loaded, so counters grow by two per level: a non-circular chain of
depth N resolves successfully iff N ≤ 256, and chains of depth 257..512
are also rejected with the circular error. -/
theorem c2_depth_cutoff_amended :
    (∀ (fuel : Nat) (fs : Fs) (bf : BashFile) (nested : Nat) (config : Args),
      CIRCULAR_CUT_OFF < nested →
      inner_load_dependents fuel fs bf nested config = .error .circular) ∧
    (∀ (fuel : Nat) (fs : Fs) (bf : BashFile) (nested : Nat) (config : Args),
      nested ≤ CIRCULAR_CUT_OFF →
      inner_load_dependents fuel fs bf nested config =
        load_dependents fuel fs (bf.setNested nested) config) ∧
    (∀ N fuel, N + 2 ≤ fuel →
      resolve fuel (chainFs N) [fname 0] defaultArgs =
        (if N ≤ 256 then .ok (BashFile.mk [fname 0] (some endStr) [] 0)
         else .error .circular)) ∧
    (∀ fuel, 513 ≤ fuel →
      resolve fuel selfFs [selfName] argsSelf = .error .circular ∧
      inner_main fuel selfFs argsSelf = .error .circular) := by
  refine ⟨?_, ?_, fun N fuel h => chain_run N fuel h, ?_⟩
  · intro fuel fs bf nested config h
    unfold inner_load_dependents
    rw [if_pos h]
  · intro fuel fs bf nested config h
    unfold inner_load_dependents
    rw [if_neg (not_lt.mpr h)]
  · intro fuel hfuel
    refine ⟨self_run fuel hfuel, ?_⟩
    simp only [inner_main]
    rw [show argsSelf.root_path = some [selfName] from rfl]
    show (resolve fuel selfFs [selfName] argsSelf).bind
      (fun bash_file => Outcome.ok (displayBashFile bash_file)) = .error .circular
    rw [self_run fuel hfuel]
    rfl

/-- C2, witness: the amended theorem at concrete inputs: a depth
counter of 513 triggers the circular error, and the depth-1 chain
resolves successfully. -/
theorem c2_witness :
    inner_load_dependents 0 (fun _ => none) (BashFile.new []) 513 defaultArgs =
      .error .circular ∧
    resolve 3 (chainFs 1) [fname 0] defaultArgs =
      .ok (BashFile.mk [fname 0] (some endStr) [] 0) := by
  constructor
  · exact c2_depth_cutoff_amended.1 0 (fun _ => none) (BashFile.new []) 513
      defaultArgs (by decide)
  · have h := c2_depth_cutoff_amended.2.2.1 1 3 (by omega)
    rw [if_pos (by omega)] at h
    exact h

/-! ### Instrumented model for claim C3

The functions below are the same embedding of the source as above,
instrumented for the read-once claim: every `BashFile::new` allocates a
fresh File Unit occurrence id from a counter, and every `BashFile::load`
records one `(occurrence id, path)` event. The scanner is shared with
the plain model (it performs no file reads; `Path::exists` is a metadata
check, not a read). -/

/-- Instrumentation state: the next fresh occurrence id and the list of
read events performed so far. -/
structure TraceSt : Type where
  nextId : Nat
  events : List (Nat × Path)

/-- A `BashFile` tagged with its occurrence id. -/
inductive BashFileT : Type where
  | mk (oid : Nat) (path : Path) (contents : Option Str)
      (dependents : List (ImportStmt BashFileT)) (nested : Nat)

/-- An `ImportStatement` whose resolved target is a tagged file. -/
abbrev ImportStatementT := ImportStmt BashFileT

/-- Occurrence id of a tagged file. -/
def BashFileT.oid : BashFileT → Nat
  | .mk i _ _ _ _ => i

/-- Field `path`. -/
def BashFileT.path : BashFileT → Path
  | .mk _ p _ _ _ => p

/-- Field `contents`. -/
def BashFileT.contents : BashFileT → Option Str
  | .mk _ _ c _ _ => c

/-- Field `dependents`. -/
def BashFileT.dependents : BashFileT → List ImportStatementT
  | .mk _ _ _ d _ => d

/-- Field `nested`. -/
def BashFileT.nested : BashFileT → Nat
  | .mk _ _ _ _ n => n

/-- Assignment to `contents`. -/
def BashFileT.setContents : BashFileT → Option Str → BashFileT
  | .mk i p _ d n, c => .mk i p c d n

/-- Assignment to `dependents`. -/
def BashFileT.setDependents : BashFileT → List ImportStatementT → BashFileT
  | .mk i p c _ n, d => .mk i p c d n

/-- Assignment to `nested`. -/
def BashFileT.setNested : BashFileT → Nat → BashFileT
  | .mk i p c d _, n => .mk i p c d n

/-- `BashFile::new`, instrumented: allocates a fresh occurrence id. -/
def newT (path : Path) (st : TraceSt) : BashFileT × TraceSt :=
  (.mk st.nextId path none [] 0, { st with nextId := st.nextId + 1 })

/-- `BashFile::load`, instrumented: records one read event for this
occurrence. -/
def loadT (fs : Fs) (bf : BashFileT) (st : TraceSt) : Outcome (BashFileT × TraceSt) :=
  match fs bf.path with
  | none => .error .io
  | some contents =>
    .ok (bf.setContents (some contents),
         { st with events := st.events ++ [(bf.oid, bf.path)] })

/-- `BashFile::lines` on a tagged file. -/
def bashLinesT (bf : BashFileT) : List Str :=
  match bf.contents with
  | none => []
  | some input => rustLines input

/-- Retags a scanned import statement (the scanner always produces
`resolved = none`). -/
def toT (imp : ImportStatement) : ImportStatementT :=
  { line_number := imp.line_number, line := imp.line, text := imp.text,
    path := imp.path, style := imp.style, resolved := none }

/-- `BashFile::imports`, instrumented (shares the scanner). -/
def importsOfT (fs : Fs) (bf : BashFileT) (config : Args) :
    Outcome (List ImportStatementT) :=
  match pathParent bf.path with
  | none => .panicked .unwrapNone
  | some parent =>
    (collectImports fs config parent (bashLinesT bf) 0).bind fun imps =>
    .ok (imps.map toT)

/-- Loop body of the instrumented `load_dependents`. -/
def processImportsT (child : ImportStatementT → TraceSt → Outcome (BashFileT × TraceSt)) :
    List ImportStatementT → TraceSt → Outcome (List ImportStatementT × TraceSt)
  | [], st => .ok ([], st)
  | imp :: rest, st =>
    (child imp st).bind fun fr =>
    (processImportsT child rest fr.2).bind fun or2 =>
    .ok ({ imp with resolved := some fr.1 } :: or2.1, or2.2)

/-- `BashFile::load_dependents`, instrumented. -/
def load_dependentsT : Nat → Fs → BashFileT → Args → TraceSt → Outcome (BashFileT × TraceSt)
  | 0, _, _, _, _ => .fuelOut
  | fuel + 1, fs, bf, config, st =>
    (importsOfT fs bf config).bind fun imps =>
    (processImportsT (fun imp st1 =>
        (loadT fs (newT imp.path st1).1 (newT imp.path st1).2).bind fun fr =>
        if bf.nested + 1 > CIRCULAR_CUT_OFF then .error .circular
        else load_dependentsT fuel fs (fr.1.setNested (bf.nested + 1)) config fr.2)
      imps st).bind fun dr =>
    .ok (bf.setDependents dr.1, dr.2)

/-- `contents.unwrap_or(String::new())` on a tagged file. -/
def contentsOrEmptyT (bf : BashFileT) : Str :=
  match bf.contents with
  | none => []
  | some c => c

/-- Loop body of the instrumented `resolve_dependents`. -/
def substImportsT (child : BashFileT → TraceSt → Outcome (BashFileT × TraceSt)) :
    List ImportStatementT → List Str → TraceSt → Outcome (List Str × TraceSt)
  | [], lines, st => .ok (lines, st)
  | imp :: rest, lines, st =>
    match imp.resolved with
    | none => substImportsT child rest lines st
    | some dep =>
      (child dep st).bind fun fr =>
      match vec_remove lines imp.line_number with
      | none => .panicked .removeOutOfBounds
      | some removed =>
        match vec_insert removed imp.line_number (contentsOrEmptyT fr.1) with
        | none => .panicked .insertOutOfBounds
        | some lines2 => substImportsT child rest lines2 fr.2

/-- `BashFile::resolve_dependents`, instrumented. -/
def resolve_dependentsT : Nat → Fs → BashFileT → Args → TraceSt → Outcome (BashFileT × TraceSt)
  | 0, _, _, _, _ => .fuelOut
  | fuel + 1, fs, bf, config, st =>
    (substImportsT (fun dep st1 =>
        (load_dependentsT fuel fs (dep.setNested (dep.nested + 1)) config st1).bind fun fr =>
        resolve_dependentsT fuel fs fr.1 config fr.2)
      bf.dependents (bashLinesT bf) st).bind fun lr =>
    .ok ((bf.setContents (some (joinLines lr.1))).setDependents [], lr.2)

/-- `BashFile::resolve`, instrumented. -/
def resolveT (fuel : Nat) (fs : Fs) (path : Path) (config : Args) (st : TraceSt) :
    Outcome (BashFileT × TraceSt) :=
  (loadT fs (newT path st).1 (newT path st).2).bind fun fr =>
  (load_dependentsT fuel fs fr.1 config fr.2).bind fun fr2 =>
  resolve_dependentsT fuel fs fr2.1 config fr2.2

/-- Relation between the instrumentation states before and after a piece
of the run: the id counter only grows, and the new read events carry
strictly increasing occurrence ids taken from the fresh id range. -/
def TraceStep (st st2 : TraceSt) : Prop :=
  st.nextId ≤ st2.nextId ∧
  ∃ new, st2.events = st.events ++ new ∧
    (∀ e ∈ new, st.nextId ≤ e.1 ∧ e.1 < st2.nextId) ∧
    List.Pairwise (fun a b : Nat × Path => a.1 < b.1) new

theorem traceStep_refl (st : TraceSt) : TraceStep st st :=
  ⟨le_refl _, [], (List.append_nil _).symm, by simp, by simp⟩

theorem traceStep_trans {s1 s2 s3 : TraceSt}
    (h1 : TraceStep s1 s2) (h2 : TraceStep s2 s3) : TraceStep s1 s3 := by
  obtain ⟨hle1, n1, he1, hb1, hp1⟩ := h1
  obtain ⟨hle2, n2, he2, hb2, hp2⟩ := h2
  refine ⟨le_trans hle1 hle2, n1 ++ n2, ?_, ?_, ?_⟩
  · rw [he2, he1, List.append_assoc]
  · intro e he
    rcases List.mem_append.mp he with h | h
    · exact ⟨(hb1 e h).1, lt_of_lt_of_le (hb1 e h).2 hle2⟩
    · exact ⟨le_trans hle1 (hb2 e h).1, (hb2 e h).2⟩
  · rw [List.pairwise_append]
    exact ⟨hp1, hp2, fun a ha b hb => lt_of_lt_of_le (hb1 a ha).2 (hb2 b hb).1⟩

/-- One `new` + `load` pair performs a single read tagged with the
freshly allocated occurrence id. -/
theorem newT_loadT_trace {fs : Fs} {p : Path} {st : TraceSt}
    {fr : BashFileT × TraceSt}
    (h : loadT fs (newT p st).1 (newT p st).2 = .ok fr) : TraceStep st fr.2 := by
  unfold loadT newT at h
  cases hfs : fs (BashFileT.mk st.nextId p none [] 0).path with
  | none => rw [hfs] at h; simp at h
  | some c =>
    rw [hfs] at h
    have := Outcome.ok.inj h
    subst this
    refine ⟨by simp, [(st.nextId, p)], by simp [BashFileT.oid, BashFileT.path], ?_, by simp⟩
    intro e he
    simp only [List.mem_singleton] at he
    subst he
    simp [BashFileT.oid]

theorem processImportsT_trace
    {child : ImportStatementT → TraceSt → Outcome (BashFileT × TraceSt)}
    (hchild : ∀ imp st fr, child imp st = .ok fr → TraceStep st fr.2) :
    ∀ {imps : List ImportStatementT} {st : TraceSt}
      {dr : List ImportStatementT × TraceSt},
      processImportsT child imps st = .ok dr → TraceStep st dr.2
  | [], st, dr, h => by
    simp only [processImportsT] at h
    rw [← Outcome.ok.inj h]
    exact traceStep_refl st
  | imp :: rest, st, dr, h => by
    simp only [processImportsT] at h
    cases hc : child imp st with
    | fuelOut => rw [hc] at h; simp [Outcome.bind] at h
    | panicked k => rw [hc] at h; simp [Outcome.bind] at h
    | error e => rw [hc] at h; simp [Outcome.bind] at h
    | ok fr =>
      rw [hc, Outcome.bind_ok] at h
      cases hrec : processImportsT child rest fr.2 with
      | fuelOut => rw [hrec] at h; simp [Outcome.bind] at h
      | panicked k => rw [hrec] at h; simp [Outcome.bind] at h
      | error e => rw [hrec] at h; simp [Outcome.bind] at h
      | ok or2 =>
        rw [hrec, Outcome.bind_ok] at h
        have hdr := Outcome.ok.inj h
        have : dr.2 = or2.2 := by rw [← hdr]
        rw [this]
        exact traceStep_trans (hchild imp st fr hc) (processImportsT_trace hchild hrec)

theorem load_dependentsT_trace :
    ∀ (fuel : Nat) {fs : Fs} {bf : BashFileT} {config : Args} {st : TraceSt}
      {fr : BashFileT × TraceSt},
      load_dependentsT fuel fs bf config st = .ok fr → TraceStep st fr.2
  | 0, _, _, _, _, _, h => by simp [load_dependentsT] at h
  | fuel + 1, fs, bf, config, st, fr, h => by
    simp only [load_dependentsT] at h
    cases himps : importsOfT fs bf config with
    | fuelOut => rw [himps] at h; simp [Outcome.bind] at h
    | panicked k => rw [himps] at h; simp [Outcome.bind] at h
    | error e => rw [himps] at h; simp [Outcome.bind] at h
    | ok imps =>
      rw [himps, Outcome.bind_ok] at h
      cases hproc : processImportsT _ imps st with
      | fuelOut => rw [hproc] at h; simp [Outcome.bind] at h
      | panicked k => rw [hproc] at h; simp [Outcome.bind] at h
      | error e => rw [hproc] at h; simp [Outcome.bind] at h
      | ok dr =>
        rw [hproc, Outcome.bind_ok] at h
        have hdr := Outcome.ok.inj h
        have hst : fr.2 = dr.2 := by rw [← hdr]
        rw [hst]
        refine processImportsT_trace ?_ hproc
        intro imp st1 fr1 hc
        cases hload : loadT fs (newT imp.path st1).1 (newT imp.path st1).2 with
        | fuelOut => rw [hload] at hc; simp [Outcome.bind] at hc
        | panicked k => rw [hload] at hc; simp [Outcome.bind] at hc
        | error e => rw [hload] at hc; simp [Outcome.bind] at hc
        | ok fr0 =>
          rw [hload, Outcome.bind_ok] at hc
          have hstep1 := newT_loadT_trace hload
          split at hc
          · simp at hc
          · exact traceStep_trans hstep1 (load_dependentsT_trace fuel hc)

theorem substImportsT_trace
    {child : BashFileT → TraceSt → Outcome (BashFileT × TraceSt)}
    (hchild : ∀ dep st fr, child dep st = .ok fr → TraceStep st fr.2) :
    ∀ {imps : List ImportStatementT} {lines : List Str} {st : TraceSt}
      {lr : List Str × TraceSt},
      substImportsT child imps lines st = .ok lr → TraceStep st lr.2
  | [], lines, st, lr, h => by
    simp only [substImportsT] at h
    rw [← Outcome.ok.inj h]
    exact traceStep_refl st
  | imp :: rest, lines, st, lr, h => by
    simp only [substImportsT] at h
    cases hres : imp.resolved with
    | none =>
      rw [hres] at h
      simp only at h
      exact substImportsT_trace hchild h
    | some dep =>
      rw [hres] at h
      simp only at h
      cases hc : child dep st with
      | fuelOut => rw [hc] at h; simp [Outcome.bind] at h
      | panicked k => rw [hc] at h; simp [Outcome.bind] at h
      | error e => rw [hc] at h; simp [Outcome.bind] at h
      | ok fr =>
        rw [hc, Outcome.bind_ok] at h
        cases hrem : vec_remove lines imp.line_number with
        | none => rw [hrem] at h; simp at h
        | some removed =>
          rw [hrem] at h
          simp only at h
          cases hins : vec_insert removed imp.line_number (contentsOrEmptyT fr.1) with
          | none => rw [hins] at h; simp at h
          | some lines2 =>
            rw [hins] at h
            simp only at h
            exact traceStep_trans (hchild dep st fr hc) (substImportsT_trace hchild h)

theorem resolve_dependentsT_trace :
    ∀ (fuel : Nat) {fs : Fs} {bf : BashFileT} {config : Args} {st : TraceSt}
      {fr : BashFileT × TraceSt},
      resolve_dependentsT fuel fs bf config st = .ok fr → TraceStep st fr.2
  | 0, _, _, _, _, _, h => by simp [resolve_dependentsT] at h
  | fuel + 1, fs, bf, config, st, fr, h => by
    simp only [resolve_dependentsT] at h
    cases hsub : substImportsT _ bf.dependents (bashLinesT bf) st with
    | fuelOut => rw [hsub] at h; simp [Outcome.bind] at h
    | panicked k => rw [hsub] at h; simp [Outcome.bind] at h
    | error e => rw [hsub] at h; simp [Outcome.bind] at h
    | ok lr =>
      rw [hsub, Outcome.bind_ok] at h
      have hst : fr.2 = lr.2 := by rw [← Outcome.ok.inj h]
      rw [hst]
      refine substImportsT_trace ?_ hsub
      intro dep st1 fr1 hc
      cases hload : load_dependentsT fuel fs (dep.setNested (dep.nested + 1)) config st1 with
      | fuelOut => rw [hload] at hc; simp [Outcome.bind] at hc
      | panicked k => rw [hload] at hc; simp [Outcome.bind] at hc
      | error e => rw [hload] at hc; simp [Outcome.bind] at hc
      | ok fr0 =>
        rw [hload, Outcome.bind_ok] at hc
        exact traceStep_trans (load_dependentsT_trace fuel hload)
          (resolve_dependentsT_trace fuel hc)

theorem resolveT_trace {fuel : Nat} {fs : Fs} {p : Path} {config : Args}
    {st : TraceSt} {fr : BashFileT × TraceSt}
    (h : resolveT fuel fs p config st = .ok fr) : TraceStep st fr.2 := by
  unfold resolveT at h
  cases hload : loadT fs (newT p st).1 (newT p st).2 with
  | fuelOut => rw [hload] at h; simp [Outcome.bind] at h
  | panicked k => rw [hload] at h; simp [Outcome.bind] at h
  | error e => rw [hload] at h; simp [Outcome.bind] at h
  | ok fr1 =>
    rw [hload, Outcome.bind_ok] at h
    cases hld : load_dependentsT fuel fs fr1.1 config fr1.2 with
    | fuelOut => rw [hld] at h; simp [Outcome.bind] at h
    | panicked k => rw [hld] at h; simp [Outcome.bind] at h
    | error e => rw [hld] at h; simp [Outcome.bind] at h
    | ok fr2 =>
      rw [hld, Outcome.bind_ok] at h
      exact traceStep_trans (newT_loadT_trace hload)
        (traceStep_trans (load_dependentsT_trace fuel hld)
          (resolve_dependentsT_trace fuel h))

/-! ### Claim C3 -/

/-- C3: in every successful resolution run, the occurrence ids of the
recorded read events are pairwise distinct: no File Unit occurrence has
its file opened and read a second time (each occurrence is read exactly
once, at the single load performed right after its creation). -/
theorem c3_read_once_per_occurrence (fuel : Nat) (fs : Fs) (p : Path)
    (config : Args) (i0 : Nat) (fr : BashFileT × TraceSt)
    (h : resolveT fuel fs p config { nextId := i0, events := [] } = .ok fr) :
    (fr.2.events.map Prod.fst).Nodup := by
  obtain ⟨_, new, hev, _, hpw⟩ := resolveT_trace h
  simp only [List.nil_append] at hev
  rw [hev]
  exact List.pairwise_map.mpr (hpw.imp fun hlt => Nat.ne_of_lt hlt)

/-- C3, witness: the theorem applied to a one-file run, whose single
read event carries occurrence id 0. -/
theorem c3_witness :
    ((({ nextId := 1, events := [(0, [['r', '.', 's', 'h']])] } : TraceSt)).events.map
      Prod.fst).Nodup := by
  exact c3_read_once_per_occurrence 1
    (fun p => if p = [['r', '.', 's', 'h']] then some ['x'] else none)
    [['r', '.', 's', 'h']] defaultArgs 0
    (BashFileT.mk 0 [['r', '.', 's', 'h']] (some ['x']) [] 0,
      { nextId := 1, events := [(0, [['r', '.', 's', 'h']])] })
    rfl

end BashBuilder
